import Mathlib

/-!
Verification of TwitchDropsMiner-modded against its specification.

This file shallowly embeds the parts of the program that the claims concern:

* the JSON deep-merge `_merge_data` (twitch/drops.py, twitch/client.py);
* the pub/sub websocket pool `add_topics` / `remove_topics`
  (twitch/websocket.py);
* the channel scheduler `should_switch` and the priority scorers
  (twitch/streams.py, twitch/client.py, priority_algorithms.py);
* the GQL batch error classification in `Twitch.gql_request`
  (twitch/client.py);
* the settings migration (settings.py);
* the healthcheck-file writes of the main state machine and the watch loop
  (twitch/client.py, gui/components.py).

Python dictionaries are modelled as association lists (key order is
insertion order; well-formedness is key-nodup), Python floats as rationals,
and Python exceptions as `Except`.
-/

namespace TDM

/-- JSON values, mirroring the `JsonType` trees handled by `_merge_data`.
Python `bool` and `int` are distinct constructors because
`isinstance(True, int)` asymmetries make the merge's mutual isinstance
check treat them as mismatched types. Objects are association lists in
insertion order. -/
inductive Json where
  | null : Json
  | bool : Bool → Json
  | num : Int → Json
  | str : String → Json
  | arr : List Json → Json
  | obj : List (String × Json) → Json
deriving Repr

/-- The merge's type compatibility test, from
`isinstance(vp, type(vs)) and isinstance(vs, type(vp))` in `_merge_data`:
both directions hold exactly when the two values have the same Python
type, i.e. the same constructor here. -/
def Json.sameType : Json → Json → Bool
  | .null, .null => true
  | .bool _, .bool _ => true
  | .num _, .num _ => true
  | .str _, .str _ => true
  | .arr _, .arr _ => true
  | .obj _, .obj _ => true
  | _, _ => false

mutual

/-- Per-key merge of two values present under the same key, from the body of
the key loop of `_merge_data` (twitch/drops.py lines 53-62): mismatched
types raise `MinerException("Inconsistent merge data")`; two dicts recurse;
otherwise the primary value wins. -/
def mergeVal (vp vs : Json) : Except String Json :=
  if Json.sameType vp vs = false then
    .error "Inconsistent merge data"
  else
    match vp, vs with
    | .obj o1, .obj o2 => do
        let m ← mergePart o1 o2
        pure (Json.obj (m ++ o2.filter (fun e => (List.lookup e.1 o1).isNone)))
    | vp, _ => pure vp

/-- Merge of the primary dict's entries against the secondary dict:
keys only in the primary keep the primary value, shared keys are merged
with `mergeVal`. -/
def mergePart : List (String × Json) → List (String × Json) →
    Except String (List (String × Json))
  | [], _ => pure []
  | (k, vp) :: rest, s =>
      match List.lookup k s with
      | none => do
          let tail ← mergePart rest s
          pure ((k, vp) :: tail)
      | some vs => do
          let v ← mergeVal vp vs
          let tail ← mergePart rest s
          pure ((k, v) :: tail)

end

/-- `_merge_data(primary, secondary)`: the primary dict's entries merged
against the secondary, followed by the secondary-only entries. Python
iterates `set(chain(primary.keys(), secondary.keys()))` whose order is
arbitrary; since Python dict equality ignores insertion order we fix the
deterministic order "primary keys first, then secondary-only keys". -/
def mergeData (p s : List (String × Json)) :
    Except String (List (String × Json)) := do
  let m ← mergePart p s
  pure (m ++ s.filter (fun e => (List.lookup e.1 p).isNone))

mutual

/-- Well-formedness of a JSON value: every object node has no duplicate
keys (as Python dicts guarantee). -/
def Json.wf : Json → Bool
  | .obj o => wfList o
  | _ => true

/-- Well-formedness of an object node's association list. -/
def wfList : List (String × Json) → Bool
  | [] => true
  | (k, v) :: rest =>
      Json.wf v && !(rest.any (fun e => e.1 == k)) && wfList rest

end

/-! ### Lemmas about the deep merge -/

theorem lookup_append_of_some {k : String} {l1 l2 : List (String × Json)}
    {w : Json} (h : List.lookup k l1 = some w) :
    List.lookup k (l1 ++ l2) = some w := by
  induction l1 with
  | nil => simp [List.lookup] at h
  | cons e rest ih =>
      rw [List.cons_append]
      rw [List.lookup] at h ⊢
      cases hk : (k == e.1) with
      | true => simpa [hk] using h
      | false => simp only [hk] at h ⊢; exact ih h

theorem mergePart_empty (A : List (String × Json)) :
    mergePart A [] = .ok A := by
  induction A with
  | nil => rfl
  | cons e rest ih =>
      obtain ⟨k, v⟩ := e
      simp [mergePart, List.lookup, ih]

theorem mergeData_empty (A : List (String × Json)) :
    mergeData A [] = .ok A := by
  simp [mergeData, mergePart_empty]

theorem mergePart_of_lookups (A s : List (String × Json))
    (h1 : ∀ e ∈ A, List.lookup e.1 s = some e.2)
    (h2 : ∀ e ∈ A, mergeVal e.2 e.2 = .ok e.2) :
    mergePart A s = .ok A := by
  induction A with
  | nil => rfl
  | cons e rest ih =>
      obtain ⟨k, v⟩ := e
      have hl : List.lookup k s = some v := h1 (k, v) (List.mem_cons_self _ _)
      have hv : mergeVal v v = .ok v := h2 (k, v) (List.mem_cons_self _ _)
      rw [mergePart, hl]
      show (do
          let w ← mergeVal v v
          let tail ← mergePart rest s
          pure ((k, w) :: tail) : Except String _) = _
      rw [hv, ih (fun e he => h1 e (List.mem_cons_of_mem _ he))
          (fun e he => h2 e (List.mem_cons_of_mem _ he))]
      rfl

theorem wfList_lookup {A : List (String × Json)} (hwf : wfList A = true) :
    ∀ e ∈ A, List.lookup e.1 A = some e.2 := by
  induction A with
  | nil => intro e he; cases he
  | cons hd rest ih =>
      obtain ⟨k, v⟩ := hd
      rw [wfList] at hwf
      simp only [Bool.and_eq_true, Bool.not_eq_true'] at hwf
      obtain ⟨⟨_, hnd⟩, hrest⟩ := hwf
      intro e he
      rcases List.mem_cons.mp he with rfl | hmem
      · simp [List.lookup]
      · have hne : (e.1 == k) = false := by
          cases hek : (e.1 == k) with
          | false => rfl
          | true =>
              exfalso
              have : rest.any (fun x => x.1 == k) = true :=
                List.any_eq_true.mpr ⟨e, hmem, hek⟩
              rw [this] at hnd; cases hnd
        rw [List.lookup, hne]
        · exact ih hrest e hmem

theorem wfList_values {A : List (String × Json)} (hwf : wfList A = true) :
    ∀ e ∈ A, Json.wf e.2 = true := by
  induction A with
  | nil => intro e he; cases he
  | cons hd rest ih =>
      obtain ⟨k, v⟩ := hd
      rw [wfList] at hwf
      simp only [Bool.and_eq_true] at hwf
      obtain ⟨⟨hv, _⟩, hrest⟩ := hwf
      intro e he
      rcases List.mem_cons.mp he with rfl | hmem
      · exact hv
      · exact ih hrest e hmem

theorem sizeOf_snd_lt {e : String × Json} {o : List (String × Json)}
    (he : e ∈ o) : sizeOf e.2 < sizeOf o := by
  have h1 : sizeOf e < sizeOf o := List.sizeOf_lt_of_mem he
  obtain ⟨k, v⟩ := e
  simp only at h1 ⊢
  have : sizeOf v < sizeOf (k, v) := by
    simp only [Prod.mk.sizeOf_spec]
    omega
  omega

theorem mergeVal_self_aux :
    ∀ (n : ℕ) (v : Json), sizeOf v ≤ n → Json.wf v = true →
      mergeVal v v = .ok v := by
  intro n
  induction n with
  | zero =>
      intro v hv _
      exfalso
      cases v <;> simp at hv
  | succ n ih =>
      intro v hsize hwf
      cases v with
      | null => rfl
      | bool b => rfl
      | num i => rfl
      | str s => rfl
      | arr l => rfl
      | obj o =>
          rw [mergeVal]
          simp only [Json.sameType, reduceIte]
          have hwfo : wfList o = true := hwf
          have hpart : mergePart o o = .ok o :=
            mergePart_of_lookups o o (wfList_lookup hwfo)
              (fun e he => by
                have hsz : sizeOf e.2 < sizeOf (Json.obj o) := by
                  have := sizeOf_snd_lt he
                  simp only [Json.obj.sizeOf_spec]
                  omega
                exact ih e.2 (by omega) (wfList_values hwfo e he))
          rw [hpart]
          have hfilter :
              o.filter (fun e => (List.lookup e.1 o).isNone) = [] := by
            rw [List.filter_eq_nil_iff]
            intro e he
            rw [wfList_lookup hwfo e he]
            simp
          simp [hfilter]

theorem mergeVal_self {v : Json} (hwf : Json.wf v = true) :
    mergeVal v v = .ok v :=
  mergeVal_self_aux (sizeOf v) v le_rfl hwf

theorem mergeData_self {A : List (String × Json)} (hwf : wfList A = true) :
    mergeData A A = .ok A := by
  rw [mergeData]
  rw [mergePart_of_lookups A A (wfList_lookup hwf)
    (fun e he => mergeVal_self (wfList_values hwf e he))]
  have hfilter : A.filter (fun e => (List.lookup e.1 A).isNone) = [] := by
    rw [List.filter_eq_nil_iff]
    intro e he
    rw [wfList_lookup hwf e he]
    simp
  simp [hfilter]

theorem mergeData_disjoint {A B : List (String × Json)}
    (hAB : ∀ e ∈ A, List.lookup e.1 B = none)
    (hBA : ∀ e ∈ B, List.lookup e.1 A = none) :
    mergeData A B = .ok (A ++ B) := by
  rw [mergeData]
  have hpart : mergePart A B = .ok A := by
    clear hBA
    induction A with
    | nil => rfl
    | cons e rest ih =>
        obtain ⟨k, v⟩ := e
        have hl : List.lookup k B = none := hAB (k, v) (List.mem_cons_self _ _)
        rw [mergePart, hl]
        rw [ih (fun e he => hAB e (List.mem_cons_of_mem _ he))]
        rfl
  rw [hpart]
  have hfilter : B.filter (fun e => (List.lookup e.1 A).isNone) = B := by
    rw [List.filter_eq_self]
    intro e he
    rw [hBA e he]
    rfl
  simp [hfilter]

theorem mergeVal_mismatch {vp vs : Json} (h : Json.sameType vp vs = false) :
    mergeVal vp vs = .error "Inconsistent merge data" := by
  cases vp <;> cases vs <;> first
    | rfl
    | exact Bool.noConfusion h

theorem mergeVal_obj (o1 o2 : List (String × Json)) :
    mergeVal (.obj o1) (.obj o2) = (mergeData o1 o2).map Json.obj := by
  show (do
      let m ← mergePart o1 o2
      pure (Json.obj
        (m ++ o2.filter (fun e => (List.lookup e.1 o1).isNone)))
      : Except String Json) = _
  rw [mergeData]
  cases mergePart o1 o2 with
  | error e => rfl
  | ok m => rfl

theorem mergeVal_nonobj {vp vs : Json} (h : Json.sameType vp vs = true)
    (hno : ∀ o, vp ≠ Json.obj o) : mergeVal vp vs = .ok vp := by
  cases vp <;> cases vs <;> first
    | (exact absurd rfl (hno _))
    | rfl
    | exact Bool.noConfusion h

theorem mergePart_cons_none {k : String} {v : Json}
    {rest s : List (String × Json)} (h : List.lookup k s = none) :
    mergePart ((k, v) :: rest) s =
      (mergePart rest s).map (fun tail => (k, v) :: tail) := by
  rw [mergePart, h]
  show (do
      let tail ← mergePart rest s
      pure ((k, v) :: tail) : Except String _) = _
  cases mergePart rest s with
  | error e => rfl
  | ok tail => rfl

theorem mergePart_cons_some {k : String} {v vs : Json}
    {rest s : List (String × Json)} (h : List.lookup k s = some vs) :
    mergePart ((k, v) :: rest) s = (do
      let w ← mergeVal v vs
      let tail ← mergePart rest s
      pure ((k, w) :: tail)) := by
  rw [mergePart, h]

theorem mergePart_error_of_mismatch :
    ∀ {A B : List (String × Json)} {k : String} {vp vs : Json},
      List.lookup k A = some vp → List.lookup k B = some vs →
      Json.sameType vp vs = false → (mergePart A B).isOk = false := by
  intro A
  induction A with
  | nil => intro B k vp vs hA; simp [List.lookup] at hA
  | cons hd rest ih =>
      obtain ⟨k1, v1⟩ := hd
      intro B k vp vs hA hB hm
      rw [List.lookup] at hA
      cases hk : (k == k1) with
      | true =>
          rw [hk] at hA
          have hkk : k = k1 := eq_of_beq hk
          have hvp : v1 = vp := by simpa using hA
          subst hkk
          subst hvp
          rw [mergePart_cons_some hB, mergeVal_mismatch hm]
          rfl
      | false =>
          rw [hk] at hA
          simp only at hA
          have htail := ih hA hB hm
          cases hlk : List.lookup k1 B with
          | none =>
              rw [mergePart_cons_none hlk]
              cases hrest : mergePart rest B with
              | error e => rfl
              | ok m => rw [hrest] at htail; cases htail
          | some vs1 =>
              rw [mergePart_cons_some hlk]
              cases hmv : mergeVal v1 vs1 with
              | error e => rfl
              | ok w =>
                  cases hrest : mergePart rest B with
                  | error e => rfl
                  | ok m => rw [hrest] at htail; cases htail

theorem mergeData_error_of_mismatch {A B : List (String × Json)} {k : String}
    {vp vs : Json} (hA : List.lookup k A = some vp)
    (hB : List.lookup k B = some vs) (hm : Json.sameType vp vs = false) :
    (mergeData A B).isOk = false := by
  rw [mergeData]
  have := mergePart_error_of_mismatch hA hB hm
  cases hpart : mergePart A B with
  | error e => rfl
  | ok m => rw [hpart] at this; cases this

theorem mergePart_lookup_result :
    ∀ {A B m : List (String × Json)} {k : String} {vp vs : Json},
      mergePart A B = .ok m →
      List.lookup k A = some vp → List.lookup k B = some vs →
      ∃ w, mergeVal vp vs = .ok w ∧ List.lookup k m = some w := by
  intro A
  induction A with
  | nil => intro B m k vp vs _ hA; simp [List.lookup] at hA
  | cons hd rest ih =>
      obtain ⟨k1, v1⟩ := hd
      intro B m k vp vs hok hA hB
      rw [List.lookup] at hA
      cases hk : (k == k1) with
      | true =>
          rw [hk] at hA
          have hkk : k = k1 := eq_of_beq hk
          have hv1 : v1 = vp := by simpa using hA
          subst hkk
          subst hv1
          rw [mergePart_cons_some hB] at hok
          cases hmv : mergeVal v1 vs with
          | error e => rw [hmv] at hok; cases hok
          | ok w =>
              rw [hmv] at hok
              cases hrest : mergePart rest B with
              | error e => rw [hrest] at hok; cases hok
              | ok tail =>
                  rw [hrest] at hok
                  have h2 : (Except.ok ((k, w) :: tail) :
                      Except String (List (String × Json))) = Except.ok m := hok
                  have hmm : m = (k, w) :: tail := by
                    cases h2; rfl
                  subst hmm
                  exact ⟨w, rfl, by rw [List.lookup, hk]⟩
      | false =>
          rw [hk] at hA
          simp only at hA
          cases hlk : List.lookup k1 B with
          | none =>
              rw [mergePart_cons_none hlk] at hok
              cases hrest : mergePart rest B with
              | error e => rw [hrest] at hok; cases hok
              | ok tail =>
                  rw [hrest] at hok
                  have h2 : (Except.ok ((k1, v1) :: tail) :
                      Except String (List (String × Json))) = Except.ok m := hok
                  have hmm : m = (k1, v1) :: tail := by
                    cases h2; rfl
                  subst hmm
                  obtain ⟨w, hw1, hw2⟩ := ih hrest hA hB
                  exact ⟨w, hw1, by rw [List.lookup, hk]; exact hw2⟩
          | some vs1 =>
              rw [mergePart_cons_some hlk] at hok
              cases hmv : mergeVal v1 vs1 with
              | error e => rw [hmv] at hok; cases hok
              | ok w1 =>
                  rw [hmv] at hok
                  cases hrest : mergePart rest B with
                  | error e => rw [hrest] at hok; cases hok
                  | ok tail =>
                      rw [hrest] at hok
                      have h2 : (Except.ok ((k1, w1) :: tail) :
                          Except String (List (String × Json))) = Except.ok m := hok
                      have hmm : m = (k1, w1) :: tail := by
                        cases h2; rfl
                      subst hmm
                      obtain ⟨w, hw1, hw2⟩ := ih hrest hA hB
                      exact ⟨w, hw1, by rw [List.lookup, hk]; exact hw2⟩

theorem mergeData_lookup_result {A B m : List (String × Json)} {k : String}
    {vp vs : Json} (hok : mergeData A B = .ok m)
    (hA : List.lookup k A = some vp) (hB : List.lookup k B = some vs) :
    ∃ w, mergeVal vp vs = .ok w ∧ List.lookup k m = some w := by
  rw [mergeData] at hok
  cases hpart : mergePart A B with
  | error e => rw [hpart] at hok; cases hok
  | ok mp =>
      rw [hpart] at hok
      have hm : m = mp ++ B.filter (fun e => (List.lookup e.1 A).isNone) := by
        simpa using hok.symm
      subst hm
      obtain ⟨w, hw1, hw2⟩ := mergePart_lookup_result hpart hA hB
      exact ⟨w, hw1, lookup_append_of_some hw2⟩

/-- C1: the deep merge `_merge_data` satisfies the spec's laws:
`merge(A, A) = A` for a well-formed tree, `merge(A, {}) = A`, and for
disjoint key sets `merge(A, B)` holds exactly the union of A's and B's
entries; for a key present in both trees the merge recurses when both
values are maps and otherwise takes A's value, and a shared key whose two
values have mismatched types makes the whole merge fail with
`MinerException("Inconsistent merge data")`. -/
theorem C1_merge_laws (A B : List (String × Json)) :
    (wfList A = true → mergeData A A = .ok A)
    ∧ mergeData A [] = .ok A
    ∧ ((∀ e ∈ A, List.lookup e.1 B = none) →
        (∀ e ∈ B, List.lookup e.1 A = none) →
        mergeData A B = .ok (A ++ B))
    ∧ (∀ k vp vs, List.lookup k A = some vp → List.lookup k B = some vs →
        (Json.sameType vp vs = false → (mergeData A B).isOk = false)
        ∧ (∀ o1 o2, vp = Json.obj o1 → vs = Json.obj o2 →
            mergeVal vp vs = (mergeData o1 o2).map Json.obj)
        ∧ (Json.sameType vp vs = true → (∀ o, vp ≠ Json.obj o) →
            mergeVal vp vs = .ok vp)
        ∧ (∀ m, mergeData A B = .ok m →
            ∃ w, mergeVal vp vs = .ok w ∧ List.lookup k m = some w)) := by
  refine ⟨fun hwf => mergeData_self hwf, mergeData_empty A,
    fun h1 h2 => mergeData_disjoint h1 h2,
    fun k vp vs hA hB => ⟨?_, ?_, ?_, ?_⟩⟩
  · exact fun hm => mergeData_error_of_mismatch hA hB hm
  · rintro o1 o2 rfl rfl
    exact mergeVal_obj o1 o2
  · exact fun h hno => mergeVal_nonobj h hno
  · exact fun m hok => mergeData_lookup_result hok hA hB

/-- Witness for C1: the merge laws evaluated at concrete JSON trees. -/
theorem C1_merge_laws_witness :
    mergeData [("a", Json.num 1), ("o", Json.obj [("x", Json.bool true)])]
        [("a", Json.num 1), ("o", Json.obj [("x", Json.bool true)])]
      = .ok [("a", Json.num 1), ("o", Json.obj [("x", Json.bool true)])]
    ∧ mergeData [("a", Json.num 1)] [("b", Json.str "y")]
      = .ok [("a", Json.num 1), ("b", Json.str "y")]
    ∧ (mergeData [("k", Json.num 1)] [("k", Json.str "y")]).isOk = false := by
  refine ⟨?_, ?_, ?_⟩
  · exact (C1_merge_laws
      [("a", Json.num 1), ("o", Json.obj [("x", Json.bool true)])]
      [("a", Json.num 1), ("o", Json.obj [("x", Json.bool true)])]).1 rfl
  · exact (C1_merge_laws [("a", Json.num 1)] [("b", Json.str "y")]).2.2.1
      (by intro e he; fin_cases he <;> rfl)
      (by intro e he; fin_cases he <;> rfl)
  · exact ((C1_merge_laws [("k", Json.num 1)] [("k", Json.str "y")]).2.2.2
      "k" (Json.num 1) (Json.str "y") rfl rfl).1 rfl

/-! ### Channels, priority scorers and the channel scheduler

Python floats are modelled as rationals; `datetime` instants as rational
seconds since the epoch (so `(ends_at - now).total_seconds() / 3600` is
plain rational arithmetic); `-float('inf')` as the extra point of
`PyFloat`. -/

/-- The four values of `Settings.priority_algorithm`
(`PRIORITY_ALGORITHM_LIST`, `..._ADAPTIVE`, `..._BALANCED`,
`..._ENDING_SOONEST` in constants). -/
inductive PriorityAlgorithm where
  | list
  | adaptive
  | balanced
  | ending_soonest
deriving DecidableEq, Repr

/-- The channel fields consulted by `Twitch.get_priority` and
`should_switch`: the streamed game (None when offline or unset, modelled by
its name), the viewer count, and whether the channel came from a campaign
ACL. -/
structure Channel where
  game : Option String
  viewers : Option Int
  acl_based : Bool
deriving DecidableEq, Repr

/-- `Twitch._get_list_priority` (twitch/client.py lines 175-179):
0 when the channel has no game, else `wanted_games.get(game, 0)`.
`wanted_games` maps game (by name) to its score. -/
def getListPriority (wantedGames : List (String × ℚ)) (c : Channel) : ℚ :=
  match c.game with
  | none => 0
  | some g => (List.lookup g wantedGames).getD 0

/-- `Twitch._get_adaptive_priority` (twitch/client.py lines 181-188):
the list priority plus `min(viewers // 1000, 10)` when the channel has a
truthy (non-zero) viewer count. `//` is Python floor division. -/
def getAdaptivePriority (wantedGames : List (String × ℚ)) (c : Channel) : ℚ :=
  let base := getListPriority wantedGames c
  match c.viewers with
  | none => base
  | some v => if v ≠ 0 then base + ((min (Int.fdiv v 1000) 10 : ℤ) : ℚ)
              else base

/-- `Twitch._get_balanced_priority` (twitch/client.py lines 190-193):
delegates to the list priority. -/
def getBalancedPriority (wantedGames : List (String × ℚ)) (c : Channel) : ℚ :=
  getListPriority wantedGames c

/-- `Twitch._get_ending_soonest_priority` (twitch/client.py lines
195-198): delegates to the list priority. -/
def getEndingSoonestPriority (wantedGames : List (String × ℚ))
    (c : Channel) : ℚ :=
  getListPriority wantedGames c

/-- `Twitch.get_priority` (twitch/client.py lines 159-173): dispatch on the
configured algorithm. -/
def get_priority (alg : PriorityAlgorithm)
    (wantedGames : List (String × ℚ)) (c : Channel) : ℚ :=
  match alg with
  | .list => getListPriority wantedGames c
  | .adaptive => getAdaptivePriority wantedGames c
  | .balanced => getBalancedPriority wantedGames c
  | .ending_soonest => getEndingSoonestPriority wantedGames c

/-- `StreamsManager.should_switch` (twitch/streams.py lines 78-93, likewise
`Twitch.should_switch` in twitch/client.py lines 709-724): no watching
channel means switch; otherwise Python's
`a > b or a == b and ch.acl_based > cur.acl_based` (with `and` binding
tighter than `or`, and `>` on bools meaning "first true, second false"). -/
def should_switch (alg : PriorityAlgorithm)
    (wantedGames : List (String × ℚ)) (watching : Option Channel)
    (channel : Channel) : Bool :=
  match watching with
  | none => true
  | some w =>
      let channel_order := get_priority alg wantedGames channel
      let watching_order := get_priority alg wantedGames w
      decide (channel_order > watching_order)
        || (decide (channel_order = watching_order)
            && (channel.acl_based && !w.acl_based))

/-- The campaign fields consulted by the priority scorers. -/
structure Campaign where
  ends_at : ℚ
  remaining_minutes : ℚ
deriving DecidableEq, Repr

/-- Python floats together with `-float('inf')`, returned by the
DropsManager scorers for expired campaigns. -/
inductive PyFloat where
  | val : ℚ → PyFloat
  | ninf : PyFloat
deriving DecidableEq, Repr

/-- `-sys.maxsize`, the sentinel returned by the standalone scorers in
priority_algorithms.py. -/
def negMaxsize : ℚ := -(2 ^ 63 - 1)

/-- `Calculate_Balanced_Priority` (priority_algorithms.py lines 8-53):
60% user priority + 40% time urgency, using the inverted priority
`L - user_priority + 1` normalised by the priority list length. -/
def Calculate_Balanced_Priority (c : Campaign) (now : ℚ)
    (user_priority priority_list_length : ℚ) : ℚ :=
  let time_remaining_hours := (c.ends_at - now) / 3600
  if time_remaining_hours ≤ 0 then negMaxsize
  else
    let max_urgency_window : ℚ := 72
    let time_urgency_score :=
      min 100 (max 0 (100 * (1 - time_remaining_hours / max_urgency_window)))
    let inverted_priority := priority_list_length - user_priority + 1
    let priority_score := inverted_priority / priority_list_length * 100
    let priority_weight : ℚ := 60 / 100
    let time_weight : ℚ := 40 / 100
    let blended_score :=
      priority_weight * priority_score + time_weight * time_urgency_score
    blended_score / 100 * inverted_priority + blended_score * (1 / 10)

/-- `Calculate_Adaptive_Priority` (priority_algorithms.py lines 55-91):
inverted priority boosted by completion risk. -/
def Calculate_Adaptive_Priority (c : Campaign) (now : ℚ)
    (user_priority priority_list_length : ℚ) : ℚ :=
  let time_remaining_hours := (c.ends_at - now) / 3600
  if time_remaining_hours ≤ 0 then negMaxsize
  else
    let minutes_needed := c.remaining_minutes
    let hours_needed := minutes_needed / 60
    let buffer_factor : ℚ := 12 / 10
    let time_risk :=
      if hours_needed > 0 then
        max 0 (1 - time_remaining_hours / (hours_needed * buffer_factor))
      else 0
    let inverted_priority := priority_list_length - user_priority + 1
    let priority_boost := inverted_priority * time_risk * 10
    inverted_priority + priority_boost

/-- `DropsManager._calculate_weighted_priority` (twitch/drops.py lines
111-154): like the standalone balanced scorer but normalising by
`max(10, user_priority)` and returning `-float('inf')` when expired. -/
def calculateWeightedPriority (c : Campaign) (now user_priority : ℚ) :
    PyFloat :=
  let time_remaining_hours := (c.ends_at - now) / 3600
  if time_remaining_hours ≤ 0 then .ninf
  else
    let time_urgency_score :=
      min 100 (max 0 (100 * (1 - time_remaining_hours / 72)))
    let max_expected_priority := max 10 user_priority
    let priority_score := user_priority / max_expected_priority * 100
    let blended_score :=
      60 / 100 * priority_score + 40 / 100 * time_urgency_score
    .val (blended_score / 100 * user_priority + blended_score * (1 / 10))

/-- `DropsManager._calculate_smart_priority` (twitch/drops.py lines
156-187): user priority boosted by completion risk, `-float('inf')` when
expired. -/
def calculateSmartPriority (c : Campaign) (now user_priority : ℚ) :
    PyFloat :=
  let time_remaining_hours := (c.ends_at - now) / 3600
  if time_remaining_hours ≤ 0 then .ninf
  else
    let hours_needed := c.remaining_minutes / 60
    let time_risk :=
      if hours_needed > 0 then
        max 0 (1 - time_remaining_hours / (hours_needed * (12 / 10)))
      else 0
    .val (user_priority + user_priority * time_risk * 10)

/-- `Twitch._calculate_weighted_priority` (twitch/client.py lines 205-208):
the "Simplified implementation" used by the live `GAMES_UPDATE` scoring
path — it returns `float(user_priority)` without consulting the
campaign. -/
def twitchCalculateWeightedPriority (_c : Campaign) (user_priority : ℚ) :
    ℚ :=
  user_priority

/-- `Twitch._calculate_smart_priority` (twitch/client.py lines 210-213):
likewise returns `float(user_priority)`. -/
def twitchCalculateSmartPriority (_c : Campaign) (user_priority : ℚ) : ℚ :=
  user_priority

/-- The per-campaign score that the `GAMES_UPDATE` state writes into
`wanted_games` (twitch/client.py lines 283-328), for a campaign at filtered
index `i` out of `n`, whose game has user priority `gamePriority`
(`priorities.get(game.name, 0)`; Python truthiness makes 0 the "absent"
case). -/
def gamesUpdateScore (alg : PriorityAlgorithm) (c : Campaign) (now : ℚ)
    (gamePriority : ℚ) (i n : ℕ) : ℚ :=
  match alg with
  | .ending_soonest =>
      if gamePriority ≠ 0 then ((n : ℚ) - (i : ℚ)) else -(i : ℚ)
  | .balanced =>
      if gamePriority ≠ 0 then twitchCalculateWeightedPriority c gamePriority
      else -((c.ends_at - now) / 3600)
  | .adaptive =>
      if gamePriority ≠ 0 then twitchCalculateSmartPriority c gamePriority
      else -((c.ends_at - now) / 3600)
  | .list =>
      if gamePriority ≠ 0 then gamePriority else -(i : ℚ)

/-- C3: `should_switch(new)` is true when nothing is being watched, and
otherwise exactly when the new channel's priority is strictly higher, or
equal with the new channel ACL-based and the watched one not. -/
theorem C3_should_switch (alg : PriorityAlgorithm)
    (wantedGames : List (String × ℚ)) (watching : Option Channel)
    (channel : Channel) :
    should_switch alg wantedGames watching channel = true ↔
      (watching = none ∨ ∃ w, watching = some w ∧
        (get_priority alg wantedGames channel >
            get_priority alg wantedGames w
          ∨ (get_priority alg wantedGames channel =
                get_priority alg wantedGames w
              ∧ channel.acl_based = true ∧ w.acl_based = false))) := by
  cases watching with
  | none => simp [should_switch]
  | some w =>
      simp only [should_switch, Bool.or_eq_true, Bool.and_eq_true,
        decide_eq_true_eq, Bool.not_eq_true']
      constructor
      · rintro (h | ⟨heq, hacl, hnacl⟩)
        · exact Or.inr ⟨w, rfl, Or.inl h⟩
        · exact Or.inr ⟨w, rfl, Or.inr ⟨heq, hacl, hnacl⟩⟩
      · rintro (h | ⟨w', hw', h | ⟨heq, hacl, hnacl⟩⟩)
        · cases h
        · cases hw'
          exact Or.inl h
        · cases hw'
          exact Or.inr ⟨heq, hacl, hnacl⟩

/-- Counterexample to C5: for a campaign already past `ends_at`
(ends 3600 s before "now"), the live scoring path of the client assigns an
ordinary, positive score — under BALANCED the `GAMES_UPDATE` state stores
`Twitch._calculate_weighted_priority(campaign, 5) = 5.0`, under LIST it
stores the user priority 5, under ADAPTIVE 5.0, and under ENDING_SOONEST
the rank score 1 — none of which is a minimal sentinel such as
`-sys.maxsize`. -/
theorem C5_counterexample :
    (Campaign.mk 0 30).ends_at ≤ (3600 : ℚ)
    ∧ gamesUpdateScore .balanced (Campaign.mk 0 30) 3600 5 0 1 = 5
    ∧ gamesUpdateScore .list (Campaign.mk 0 30) 3600 5 0 1 = 5
    ∧ gamesUpdateScore .adaptive (Campaign.mk 0 30) 3600 5 0 1 = 5
    ∧ gamesUpdateScore .ending_soonest (Campaign.mk 0 30) 3600 5 0 1 = 1
    ∧ negMaxsize < 5 := by
  refine ⟨by norm_num, ?_, ?_, ?_, ?_, by norm_num [negMaxsize]⟩ <;>
    norm_num [gamesUpdateScore, twitchCalculateWeightedPriority,
      twitchCalculateSmartPriority]

/-- C5 (amended): the scorers that do implement the expiry check — the
standalone `Calculate_Balanced_Priority` and `Calculate_Adaptive_Priority`
and the DropsManager `_calculate_weighted_priority` and
`_calculate_smart_priority` — return the minimal sentinel (`-sys.maxsize`
resp. `-float('inf')`) for every campaign with `ends_at ≤ now`; the
client's live `get_priority`/`GAMES_UPDATE` path does not consult
`ends_at` (expired campaigns are instead excluded earlier by
`filter_campaigns`). -/
theorem C5_expired_scorers (c : Campaign) (now up L : ℚ)
    (h : c.ends_at ≤ now) :
    Calculate_Balanced_Priority c now up L = negMaxsize
    ∧ Calculate_Adaptive_Priority c now up L = negMaxsize
    ∧ calculateWeightedPriority c now up = .ninf
    ∧ calculateSmartPriority c now up = .ninf := by
  have hH : (c.ends_at - now) / 3600 ≤ 0 :=
    div_nonpos_iff.mpr (Or.inr ⟨by linarith, by norm_num⟩)
  refine ⟨?_, ?_, ?_, ?_⟩
  · simp only [Calculate_Balanced_Priority]
    rw [if_pos hH]
  · simp only [Calculate_Adaptive_Priority]
    rw [if_pos hH]
  · simp only [calculateWeightedPriority]
    rw [if_pos hH]
  · simp only [calculateSmartPriority]
    rw [if_pos hH]

/-- Witness for C5 (amended): a concrete campaign one hour past its end. -/
theorem C5_expired_scorers_witness :
    (Campaign.mk 0 30).ends_at ≤ (3600 : ℚ)
    ∧ Calculate_Balanced_Priority (Campaign.mk 0 30) 3600 1 2 = negMaxsize
    ∧ calculateSmartPriority (Campaign.mk 0 30) 3600 1 = .ninf := by
  have h := C5_expired_scorers (Campaign.mk 0 30) 3600 1 2 (by norm_num)
  exact ⟨by norm_num, h.1, h.2.2.2⟩

/-- Modelled from the spec's BALANCED table row (§4.5): with `H` the hours
until `ends_at`, `U = min(100, max(0, 100·(1 − H/72)))`,
`invP = L − user_index + 1`, `P = (invP/L)·100`,
`blend = 0.60·P + 0.40·U`, the key is `blend/100 · invP + 0.1·blend`. -/
def balancedSpecKey (H up L : ℚ) : ℚ :=
  let U := min 100 (max 0 (100 * (1 - H / 72)))
  let invP := L - up + 1
  let P := invP / L * 100
  let blend := 60 / 100 * P + 40 / 100 * U
  blend / 100 * invP + 1 / 10 * blend

/-- C6: for a campaign with positive time remaining and a priority list of
positive length, `Calculate_Balanced_Priority` computes exactly the spec's
BALANCED key. -/
theorem C6_balanced_formula (c : Campaign) (now up L : ℚ)
    (h : now < c.ends_at) (hL : 0 < L) :
    Calculate_Balanced_Priority c now up L =
      balancedSpecKey ((c.ends_at - now) / 3600) up L := by
  have hH : ¬((c.ends_at - now) / 3600 ≤ 0) := by
    push_neg
    exact div_pos (by linarith) (by norm_num)
  simp only [Calculate_Balanced_Priority, balancedSpecKey]
  rw [if_neg hH]
  ring

/-- Witness for C6: the balanced key at a campaign ending in two hours,
user index 1, priority list length 2. -/
theorem C6_balanced_formula_witness :
    (0 : ℚ) < (Campaign.mk 7200 30).ends_at
    ∧ Calculate_Balanced_Priority (Campaign.mk 7200 30) 0 1 2 =
        balancedSpecKey (((Campaign.mk 7200 30).ends_at - 0) / 3600) 1 2 :=
  ⟨by norm_num,
    C6_balanced_formula (Campaign.mk 7200 30) 0 1 2 (by norm_num)
      (by norm_num)⟩

/-! ### Settings and the legacy-key migration (settings.py) -/

/-- Python truthiness of a JSON value, as used by
`if self._settings["prioritize_by_ending_soonest"]:`. -/
def Json.truthy : Json → Bool
  | .null => false
  | .bool b => b
  | .num n => n != 0
  | .str s => !s.isEmpty
  | .arr l => !l.isEmpty
  | .obj o => !o.isEmpty

/-- Python `key in dict`. -/
def hasKey (m : List (String × Json)) (k : String) : Bool :=
  (List.lookup k m).isSome

/-- Python `dict[key] = value`: updates the existing entry in place, else
appends. -/
def setKey (m : List (String × Json)) (k : String) (v : Json) :
    List (String × Json) :=
  if hasKey m k then m.map (fun e => if e.1 == k then (k, v) else e)
  else m ++ [(k, v)]

/-- Python `del dict[key]`. -/
def delKey (m : List (String × Json)) (k : String) :
    List (String × Json) :=
  m.filter (fun e => !(e.1 == k))

/-- `Settings.__get_settings_from_env__` (settings.py lines 87-106): the
env-var overrides followed by the legacy-key migration. The migration
runs only when `priority_algorithm` is absent; the constants
`PRIORITY_ALGORITHM_ENDING_SOONEST` / `PRIORITY_ALGORITHM_LIST` live in
the (absent) constants module and are modelled as the strings
"ending_soonest" / "list". -/
def getSettingsFromEnv (envPrioritize envUnlinked : Option String)
    (s : List (String × Json)) : List (String × Json) :=
  let s1 := if envPrioritize == some "1" then
      setKey s "priority_algorithm" (Json.str "ending_soonest")
    else s
  let s2 := if envUnlinked == some "1" then
      setKey s1 "unlinked_campaigns" (Json.bool true)
    else s1
  if !(hasKey s2 "priority_algorithm") then
    if hasKey s2 "prioritize_by_ending_soonest" then
      let s3 :=
        if ((List.lookup "prioritize_by_ending_soonest" s2).getD .null).truthy
        then setKey s2 "priority_algorithm" (Json.str "ending_soonest")
        else s2
      delKey s3 "prioritize_by_ending_soonest"
    else
      setKey s2 "priority_algorithm" (Json.str "list")
  else s2

theorem lookup_cons_beq {k : String} {e : String × Json}
    {rest : List (String × Json)} :
    List.lookup k (e :: rest) =
      (if k == e.1 then some e.2 else List.lookup k rest) := by
  rw [List.lookup]
  cases k == e.1 <;> rfl

theorem lookup_append_none {k : String} {l1 l2 : List (String × Json)}
    (h : List.lookup k l1 = none) :
    List.lookup k (l1 ++ l2) = List.lookup k l2 := by
  induction l1 with
  | nil => rfl
  | cons e rest ih =>
      rw [List.cons_append, lookup_cons_beq]
      rw [lookup_cons_beq] at h
      cases hk : (k == e.1) with
      | true => rw [hk] at h; simp at h
      | false =>
          rw [hk] at h
          simp only [Bool.false_eq_true, if_false] at h ⊢
          exact ih h

theorem lookup_map_set_self {k : String} {v : Json}
    {m : List (String × Json)} (h : (List.lookup k m).isSome = true) :
    List.lookup k
      (m.map (fun e => if e.1 == k then (k, v) else e)) = some v := by
  induction m with
  | nil => simp [List.lookup] at h
  | cons e rest ih =>
      rw [List.map_cons]
      cases hke : (e.1 == k) with
      | true =>
          rw [if_pos (by simp [hke]), lookup_cons_beq]
          simp
      | false =>
          rw [if_neg (by simp [hke]), lookup_cons_beq]
          have hk2 : (k == e.1) = false := by
            cases hc : (k == e.1) with
            | false => rfl
            | true => rw [eq_of_beq hc] at hke; simp at hke
          rw [hk2]
          simp only [Bool.false_eq_true, if_false]
          apply ih
          rw [lookup_cons_beq, hk2] at h
          simpa using h

theorem lookup_map_set_other {k k' : String} {v : Json}
    {m : List (String × Json)} (h : k' ≠ k) :
    List.lookup k' (m.map (fun e => if e.1 == k then (k, v) else e)) =
      List.lookup k' m := by
  induction m with
  | nil => rfl
  | cons e rest ih =>
      rw [List.map_cons]
      cases hke : (e.1 == k) with
      | true =>
          rw [if_pos (by simp [hke]), lookup_cons_beq, lookup_cons_beq]
          have he : e.1 = k := eq_of_beq hke
          have h1 : (k' == k) = false := beq_eq_false_iff_ne.mpr h
          have h2 : (k' == e.1) = false := by rw [he]; exact h1
          rw [h1, h2]
          simpa using ih
      | false =>
          rw [if_neg (by simp [hke]), lookup_cons_beq, lookup_cons_beq]
          cases hk2 : (k' == e.1) <;> simpa using ih

theorem lookup_setKey_self (m : List (String × Json)) (k : String)
    (v : Json) : List.lookup k (setKey m k v) = some v := by
  rw [setKey]
  cases hk : hasKey m k with
  | true =>
      rw [if_pos (by simp [hk])]
      rw [hasKey] at hk
      exact lookup_map_set_self hk
  | false =>
      rw [if_neg (by simp [hk])]
      rw [hasKey] at hk
      have hnone : List.lookup k m = none := by
        cases hc : List.lookup k m with
        | none => rfl
        | some w => rw [hc] at hk; simp at hk
      rw [lookup_append_none hnone, lookup_cons_beq]
      simp

theorem lookup_setKey_other (m : List (String × Json)) {k k' : String}
    (v : Json) (h : k' ≠ k) :
    List.lookup k' (setKey m k v) = List.lookup k' m := by
  rw [setKey]
  cases hk : hasKey m k with
  | true =>
      rw [if_pos (by simp [hk])]
      exact lookup_map_set_other h
  | false =>
      rw [if_neg (by simp [hk])]
      cases hc : List.lookup k' m with
      | some w => exact lookup_append_of_some hc
      | none =>
          rw [lookup_append_none hc, lookup_cons_beq]
          rw [beq_eq_false_iff_ne.mpr h]
          rfl

theorem lookup_delKey_self (m : List (String × Json)) (k : String) :
    List.lookup k (delKey m k) = none := by
  rw [delKey]
  induction m with
  | nil => rfl
  | cons e rest ih =>
      rw [List.filter_cons]
      cases hke : (e.1 == k) with
      | true => simpa [hke] using ih
      | false =>
          have h1 : (k == e.1) = false := by
            cases hc : (k == e.1) with
            | false => rfl
            | true => rw [eq_of_beq hc] at hke; simp at hke
          simp only [hke, Bool.not_false, if_true]
          rw [lookup_cons_beq, h1]
          simpa using ih

theorem lookup_delKey_other (m : List (String × Json)) {k k' : String}
    (h : k' ≠ k) : List.lookup k' (delKey m k) = List.lookup k' m := by
  rw [delKey]
  induction m with
  | nil => rfl
  | cons e rest ih =>
      rw [List.filter_cons]
      cases hke : (e.1 == k) with
      | true =>
          have h2 : (k' == e.1) = false := by
            rw [eq_of_beq hke]
            exact beq_eq_false_iff_ne.mpr h
          rw [lookup_cons_beq, h2]
          simpa [hke] using ih
      | false =>
          simp only [hke, Bool.not_false, if_true]
          rw [lookup_cons_beq, lookup_cons_beq]
          cases hk2 : (k' == e.1) <;> simpa using ih



theorem getSettingsFromEnv_none (s : List (String × Json)) :
    getSettingsFromEnv none none s =
      (if !(hasKey s "priority_algorithm") then
        if hasKey s "prioritize_by_ending_soonest" then
          delKey
            (if ((List.lookup "prioritize_by_ending_soonest" s).getD
                  .null).truthy
             then setKey s "priority_algorithm" (Json.str "ending_soonest")
             else s)
            "prioritize_by_ending_soonest"
        else setKey s "priority_algorithm" (Json.str "list")
      else s) := rfl

/-- Counterexample to C8: a loaded settings map holding both
`priority_algorithm` and the legacy `prioritize_by_ending_soonest` key is
left completely unchanged by the migration — the legacy key is neither
deleted nor is `priority_algorithm` set to ENDING_SOONEST, because the
migration only runs when `priority_algorithm` is absent. -/
theorem C8_counterexample :
    getSettingsFromEnv none none
        [("priority_algorithm", Json.str "list"),
         ("prioritize_by_ending_soonest", Json.bool true)]
      = [("priority_algorithm", Json.str "list"),
         ("prioritize_by_ending_soonest", Json.bool true)]
    ∧ List.lookup "prioritize_by_ending_soonest"
        (getSettingsFromEnv none none
          [("priority_algorithm", Json.str "list"),
           ("prioritize_by_ending_soonest", Json.bool true)])
      = some (Json.bool true)
    ∧ List.lookup "priority_algorithm"
        (getSettingsFromEnv none none
          [("priority_algorithm", Json.str "list"),
           ("prioritize_by_ending_soonest", Json.bool true)])
      = some (Json.str "list") :=
  ⟨rfl, rfl, rfl⟩

/-- C8 (amended): on load, when `priority_algorithm` is absent and the
legacy `prioritize_by_ending_soonest` key is present with a truthy value,
the migration sets `priority_algorithm` to ENDING_SOONEST and deletes the
legacy key, and applying the migration a second time leaves the settings
unchanged. (When `priority_algorithm` is already present the migration
does nothing, and a falsy legacy value is deleted without setting the
algorithm.) -/
theorem C8_migration (s : List (String × Json)) (v : Json)
    (hno : List.lookup "priority_algorithm" s = none)
    (hleg : List.lookup "prioritize_by_ending_soonest" s = some v)
    (htruthy : v.truthy = true) :
    List.lookup "priority_algorithm" (getSettingsFromEnv none none s) =
      some (Json.str "ending_soonest")
    ∧ List.lookup "prioritize_by_ending_soonest"
        (getSettingsFromEnv none none s) = none
    ∧ getSettingsFromEnv none none (getSettingsFromEnv none none s) =
        getSettingsFromEnv none none s := by
  have hpa : hasKey s "priority_algorithm" = false := by
    rw [hasKey, hno]
    rfl
  have hlk : hasKey s "prioritize_by_ending_soonest" = true := by
    rw [hasKey, hleg]
    rfl
  have hne : "priority_algorithm" ≠ "prioritize_by_ending_soonest" := by
    decide
  have hstep : getSettingsFromEnv none none s =
      delKey (setKey s "priority_algorithm" (Json.str "ending_soonest"))
        "prioritize_by_ending_soonest" := by
    rw [getSettingsFromEnv_none, hpa]
    simp only [Bool.not_false, if_true]
    rw [if_pos hlk, hleg]
    simp only [Option.getD_some]
    rw [if_pos htruthy]
  refine ⟨?_, ?_, ?_⟩
  · rw [hstep, lookup_delKey_other _ hne, lookup_setKey_self]
  · rw [hstep, lookup_delKey_self]
  · have hpa2 : hasKey (getSettingsFromEnv none none s)
        "priority_algorithm" = true := by
      rw [hasKey, hstep, lookup_delKey_other _ hne, lookup_setKey_self]
      rfl
    rw [getSettingsFromEnv_none (getSettingsFromEnv none none s), hpa2]
    rfl

/-- Witness for C8 (amended): a concrete legacy settings map. -/
theorem C8_migration_witness :
    List.lookup "priority_algorithm"
        (getSettingsFromEnv none none
          [("prioritize_by_ending_soonest", Json.bool true),
           ("dark_theme", Json.bool false)])
      = some (Json.str "ending_soonest")
    ∧ List.lookup "prioritize_by_ending_soonest"
        (getSettingsFromEnv none none
          [("prioritize_by_ending_soonest", Json.bool true),
           ("dark_theme", Json.bool false)])
      = none
    ∧ getSettingsFromEnv none none
        (getSettingsFromEnv none none
          [("prioritize_by_ending_soonest", Json.bool true),
           ("dark_theme", Json.bool false)])
      = getSettingsFromEnv none none
          [("prioritize_by_ending_soonest", Json.bool true),
           ("dark_theme", Json.bool false)] :=
  C8_migration
    [("prioritize_by_ending_soonest", Json.bool true),
     ("dark_theme", Json.bool false)]
    (Json.bool true) rfl rfl rfl

/-! ### GQL batch error handling (`Twitch.gql_request`) -/

/-- An entry of a GQL response's `errors` list: `some msg` when the error
dict has a `"message"` key, `none` otherwise (such dicts are skipped by
the scan). -/
abbrev GqlError := Option String

/-- One response of a GQL batch: `errors = some l` when the response JSON
contains an `"errors"` entry with list `l`. A single (non-list) operation
is handled as the one-element batch `[response]`. -/
structure GqlResponse where
  errors : Option (List GqlError)
deriving DecidableEq, Repr

/-- The three retry-triggering error messages
(twitch/client.py lines 860-865). -/
def retryableMessage (m : String) : Bool :=
  m == "service unavailable" || m == "service timeout"
    || m == "context deadline exceeded"

/-- The inner error scan of `gql_request` (twitch/client.py lines
858-888): walk the error list in order; the first retryable message sets
`force_retry` and breaks out (skipping the `for`-`else` raise); dicts
without a `"message"` key are skipped; any other message only affects the
exception text (the `PersistedQueryNotFound` hint). Returns the final
value of `force_retry`. -/
def scanErrors : List GqlError → Bool
  | [] => false
  | none :: rest => scanErrors rest
  | some m :: rest => if retryableMessage m then true else scanErrors rest

/-- The verdict of one pass of `gql_request`'s response handling
(twitch/client.py lines 850-894): `retry` re-enters the backoff loop
(`force_retry` plus the outer `break`), `fail errs` raises
`MinerException(f"GQL error: {errs}")` from the inner `for`-`else`, and
`passthrough` runs the outer `for`-`else` and returns `orig_response`
unchanged. -/
inductive GqlOutcome where
  | retry
  | fail (errs : List GqlError)
  | passthrough
deriving DecidableEq, Repr

/-- The response-batch walk of `gql_request` (twitch/client.py lines
855-894): the first response carrying an `errors` entry decides the
verdict; responses without one are passed over; a fully clean batch is
returned unchanged. -/
def gqlClassify : List GqlResponse → GqlOutcome
  | [] => .passthrough
  | r :: rest =>
      match r.errors with
      | none => gqlClassify rest
      | some errs => if scanErrors errs then .retry else .fail errs

theorem scanErrors_iff (errs : List GqlError) :
    scanErrors errs = true ↔
      ∃ m, (some m) ∈ errs ∧ retryableMessage m = true := by
  induction errs with
  | nil => simp [scanErrors]
  | cons e rest ih =>
      cases e with
      | none =>
          rw [scanErrors, ih]
          constructor
          · rintro ⟨m, hm, hr⟩
            exact ⟨m, List.mem_cons_of_mem _ hm, hr⟩
          · rintro ⟨m, hm, hr⟩
            rcases List.mem_cons.mp hm with h | h
            · cases h
            · exact ⟨m, h, hr⟩
      | some m0 =>
          rw [scanErrors]
          cases hr0 : retryableMessage m0 with
          | true =>
              simp only [if_true]
              constructor
              · intro _
                exact ⟨m0, List.mem_cons_self _ _, hr0⟩
              · intro _
                trivial
          | false =>
              simp only [Bool.false_eq_true, if_false]
              rw [ih]
              constructor
              · rintro ⟨m, hm, hr⟩
                exact ⟨m, List.mem_cons_of_mem _ hm, hr⟩
              · rintro ⟨m, hm, hr⟩
                rcases List.mem_cons.mp hm with h | h
                · cases h
                  rw [hr0] at hr
                  cases hr
                · exact ⟨m, h, hr⟩

/-- Counterexample to C4: a batch whose first response carries only a
non-retryable error and whose second response carries the retryable
`"service timeout"`. The claim says the whole batch is retried because
some error's message is retryable; the code instead decides on the first
errors-carrying response alone and raises `MinerException` with its error
list. -/
theorem C4_counterexample :
    gqlClassify
        [GqlResponse.mk (some [some "some other error"]),
         GqlResponse.mk (some [some "service timeout"])]
      = .fail [some "some other error"]
    ∧ retryableMessage "service timeout" = true
    ∧ gqlClassify
        [GqlResponse.mk (some [some "some other error"]),
         GqlResponse.mk (some [some "service timeout"])]
      ≠ .retry := by
  refine ⟨rfl, rfl, ?_⟩
  intro h
  cases h

/-- C4 (amended): `gql_request`'s verdict is decided by the first response
of the batch that contains an `errors` entry: the batch is retried iff
that response's error list contains one of the three retryable messages,
and otherwise `MinerException` is raised carrying that response's raw
error list; a batch in which no response has an `errors` entry is
returned to the caller unchanged. -/
theorem C4_gql_classification (pre post : List GqlResponse)
    (r : GqlResponse) (errs : List GqlError)
    (hpre : ∀ x ∈ pre, x.errors = none) (hr : r.errors = some errs) :
    (gqlClassify (pre ++ r :: post) =
      if scanErrors errs then .retry else .fail errs)
    ∧ (scanErrors errs = true ↔
        ∃ m, (some m) ∈ errs ∧ retryableMessage m = true)
    ∧ (∀ batch : List GqlResponse, (∀ x ∈ batch, x.errors = none) →
        gqlClassify batch = .passthrough) := by
  refine ⟨?_, scanErrors_iff errs, ?_⟩
  · induction pre with
    | nil =>
        rw [List.nil_append, gqlClassify, hr]
    | cons x rest ih =>
        rw [List.cons_append, gqlClassify,
          hpre x (List.mem_cons_self _ _)]
        exact ih (fun y hy => hpre y (List.mem_cons_of_mem _ hy))
  · intro batch hclean
    induction batch with
    | nil => rfl
    | cons x rest ih =>
        rw [gqlClassify, hclean x (List.mem_cons_self _ _)]
        exact ih (fun y hy => hclean y (List.mem_cons_of_mem _ hy))

/-- Witness for C4 (amended): a clean first response followed by a
retryable error, and a fully clean batch. -/
theorem C4_gql_classification_witness :
    gqlClassify
        [GqlResponse.mk none,
         GqlResponse.mk (some [none, some "service timeout"])]
      = .retry
    ∧ gqlClassify [GqlResponse.mk none, GqlResponse.mk none]
      = .passthrough := by
  have h := C4_gql_classification [GqlResponse.mk none] []
    (GqlResponse.mk (some [none, some "service timeout"]))
    [none, some "service timeout"]
    (by
      intro x hx
      rcases List.mem_cons.mp hx with rfl | hx2
      · rfl
      · cases hx2)
    rfl
  constructor
  · exact h.1
  · exact h.2.2 [GqlResponse.mk none, GqlResponse.mk none]
      (by
        intro x hx
        rcases List.mem_cons.mp hx with rfl | hx2
        · rfl
        · rcases List.mem_cons.mp hx2 with rfl | hx3
          · rfl
          · cases hx3)

/-! ### Healthcheck writes: main state machine and watch loop

The process writes `healthcheck.timestamp` in exactly three places: the
two `IDLE` transitions in `Twitch._run` (twitch/client.py lines 372 and
516) and `ProgressDisplay.start_timer` (gui/components.py line 395),
which runs whenever a drop is displayed with `countdown=True`
(gui/components.py line 439). -/

/-- The states of the main state machine (`State` in the constants
module). -/
inductive MainState where
  | IDLE
  | INVENTORY_FETCH
  | GAMES_UPDATE
  | CHANNELS_CLEANUP
  | CHANNELS_FETCH
  | CHANNEL_SWITCH
  | EXIT
deriving DecidableEq, Repr

/-- The tail of the `CHANNELS_CLEANUP` state (twitch/client.py lines
367-374): with wanted games go to `CHANNELS_FETCH`; with none, write the
healthcheck timestamp and go `IDLE`. Returns (next state, wrote
healthcheck). -/
def cleanupStep (wantedGamesNonempty : Bool) : MainState × Bool :=
  if wantedGamesNonempty then (.CHANNELS_FETCH, false)
  else (.IDLE, true)

/-- The tail of the `CHANNEL_SWITCH` state (twitch/client.py lines
500-519): a switch target or a surviving watched channel keeps the state
(clearing the state-change flag, `none` = no transition); with neither,
write the healthcheck timestamp and go `IDLE`. Returns (transition, wrote
healthcheck). -/
def switchStep (newWatching watching : Option Channel) :
    Option MainState × Bool :=
  match newWatching with
  | some _ => (none, false)
  | none =>
      match watching with
      | some _ => (none, false)
      | none => (some .IDLE, true)

/-- Resolution of the 10-second wait on the `_drop_update` future in one
watch-loop iteration (twitch/client.py lines 569-577): the websocket
handler set it `True` (payload matched the expected drop), set it `False`
(mismatched payload), or the wait timed out. -/
inductive WsSignal where
  | handledTrue
  | handledFalse
  | timeout
deriving DecidableEq, Repr

/-- The observations one successful-heartbeat iteration of
`Twitch._watch_loop` (twitch/client.py lines 568-631) branches on:
whether `CurrentDrop` returned a drop session, whether its drop id is
known locally, whether that drop is earnable on the watched channel,
whether `get_active_drop()` found a drop, and the GUI seconds counter. -/
structure WatchIter where
  wsSignal : WsSignal
  gqlReturnsDrop : Bool
  dropKnown : Bool
  dropEarnable : Bool
  activeDropFound : Bool
  currentSeconds : ℕ
deriving DecidableEq, Repr

/-- The local-inventory fallback (twitch/client.py lines 613-630):
`bump_minutes` plus `drop.display()` happen only when an active drop was
found and `current_seconds < 1`. -/
def watchIterFallback (w : WatchIter) : Bool :=
  w.activeDropFound && decide (w.currentSeconds < 1)

/-- Whether the body of one successful-heartbeat iteration of
`Twitch._watch_loop` (twitch/client.py lines 568-631) reaches a
`drop.display()` call with default `countdown=True` — i.e. whether it
writes the healthcheck file via `ProgressDisplay.start_timer`. The loop
body itself never opens the file. -/
def watchIterDisplays (w : WatchIter) : Bool :=
  match w.wsSignal with
  | .handledTrue => false
  | .handledFalse =>
      if w.gqlReturnsDrop then
        if !w.dropKnown then watchIterFallback w
        else if !w.dropEarnable then watchIterFallback w
        else true
      else watchIterFallback w
  | .timeout => watchIterFallback w

/-- Counterexample to C9: a successful heartbeat after which the
websocket wait times out, `CurrentDrop` returns no session, and no active
drop can be determined locally, writes nothing — contradicting "whenever
the watch loop successfully emits a heartbeat ... the current Unix
timestamp is written". -/
theorem C9_counterexample :
    watchIterDisplays (WatchIter.mk .timeout false false false false 0)
      = false := rfl

/-- C9 (amended): both state-machine steps write the healthcheck
timestamp exactly when they transition to `IDLE`; a successful watch-loop
heartbeat writes it only indirectly, exactly when the iteration reaches a
drop display with countdown — from the GQL path with a known, earnable
drop, or from the local fallback when an active drop exists and the
seconds counter is below 1 — and not otherwise (the drop-claim websocket
handler's display also writes it, outside the watch loop). -/
theorem C9_healthcheck (wanted : Bool) (newW cur : Option Channel)
    (w : WatchIter) :
    ((cleanupStep wanted).1 = .IDLE ↔ (cleanupStep wanted).2 = true)
    ∧ ((switchStep newW cur).1 = some .IDLE ↔
        (switchStep newW cur).2 = true)
    ∧ (watchIterDisplays w = true ↔
        ((w.wsSignal = .handledFalse ∧ w.gqlReturnsDrop = true ∧
          w.dropKnown = true ∧ w.dropEarnable = true)
        ∨ ((w.wsSignal = .timeout ∨ (w.wsSignal = .handledFalse ∧
              (w.gqlReturnsDrop = false ∨ w.dropKnown = false ∨
                w.dropEarnable = false)))
            ∧ w.activeDropFound = true ∧ w.currentSeconds < 1))) := by
  refine ⟨?_, ?_, ?_⟩
  · cases wanted <;> simp [cleanupStep]
  · cases newW <;> cases cur <;> simp [switchStep]
  · obtain ⟨sig, g, k, e, a, cs⟩ := w
    cases sig <;> cases g <;> cases k <;> cases e <;> cases a <;>
      simp [watchIterDisplays, watchIterFallback]

/-! ### The pub/sub websocket pool (twitch/websocket.py)

Topics are identified by their string encoding
`"{category}-{kind}.{target_id}"` (both `Websocket.topics` keys and
`WebsocketTopic` equality reduce to it). `MAX_WEBSOCKETS` and
`WS_TOPICS_LIMIT` are build-time constants from the constants module and
are kept as parameters `maxWS` / `limit`. Python's `set` iteration order
is arbitrary; sets of topics are modelled as duplicate-free lists and
`set.pop` takes from the front. -/

/-- One pool connection: the topic table `Websocket.topics` (keys). -/
structure WS where
  topics : List String
deriving DecidableEq, Repr

/-- The connection list `WebsocketPool.websockets`. -/
structure Pool where
  websockets : List WS
deriving DecidableEq, Repr

/-- All topics currently held by the pool, in connection order. -/
def poolTopics (p : Pool) : List String :=
  (p.websockets.map WS.topics).flatten

/-- The total topic count
`sum(len(ws.topics) for ws in self.websockets)`. -/
def totalTopics (wss : List WS) : ℕ :=
  (wss.map (fun ws => ws.topics.length)).sum

/-- `Websocket.add_topics` (twitch/websocket.py lines 473-480): pop
topics from the set into the table while it holds fewer than
`WS_TOPICS_LIMIT`; returns the grown table and the leftover set. -/
def wsAddTopics (limit : ℕ) (ws : WS) (ts : List String) :
    WS × List String :=
  let n := limit - ws.topics.length
  (⟨ws.topics ++ ts.take n⟩, ts.drop n)

/-- `Websocket.remove_topics` (twitch/websocket.py lines 482-490): delete
the set's topics present in the table (`existing`) from both the table
and the set; with no overlap, leave both untouched. -/
def wsRemoveTopics (ws : WS) (ts : List String) : WS × List String :=
  if ts.any (fun t => ws.topics.contains t) then
    (⟨ws.topics.filter (fun t => !(ts.contains t))⟩,
      ts.filter (fun t => !(ws.topics.contains t)))
  else (ws, ts)

/-- The part of the `for ws_idx in range(MAX_WEBSOCKETS)` loop of
`WebsocketPool.add_topics` (twitch/websocket.py lines 532-543) that walks
the existing connections, offering each the leftover topics. -/
def fillExisting (limit : ℕ) :
    List WS → List String → List WS × List String
  | [], ts => ([], ts)
  | ws :: rest, ts =>
      let p1 := wsAddTopics limit ws ts
      let p2 := fillExisting limit rest p1.2
      (p1.1 :: p2.1, p2.2)

/-- The part of the same loop that creates up to
`MAX_WEBSOCKETS - len(websockets)` new connections while topics remain
(lines 536-546; the loop returns as soon as the set is empty, so a new
connection is only created for a non-empty set). -/
def makeNew (limit : ℕ) : ℕ → List String → List WS × List String
  | 0, ts => ([], ts)
  | n + 1, ts =>
      if ts.isEmpty then ([], ts)
      else
        let p1 := wsAddTopics limit ⟨[]⟩ ts
        let p2 := makeNew limit n p1.2
        (p1.1 :: p2.1, p2.2)

/-- `WebsocketPool.add_topics` (twitch/websocket.py lines 522-548):
deduplicate, drop topics already assigned to some connection, fill the
existing connections (the pool never holds more than `MAX_WEBSOCKETS` of
them, proved below), create new ones as needed, and raise
`MinerException("Maximum topics limit has been reached")` when topics
remain after all `MAX_WEBSOCKETS` slots were offered.
`newTopics` is the genuinely new part of the topic set:
`topics_set = set(topics)` followed by
`topics_set.difference_update(*(ws.topics.values() for ws in self.websockets))`
(lines 524-528). -/
def newTopics (p : Pool) (topics : List String) : List String :=
  topics.dedup.filter
    (fun t => !(p.websockets.any (fun ws => ws.topics.contains t)))

def poolAddTopics (maxWS limit : ℕ) (p : Pool) (topics : List String) :
    Except String Pool :=
  let ts1 := newTopics p topics
  if ts1.isEmpty then .ok p
  else
    let f := fillExisting limit p.websockets ts1
    let m := makeNew limit (maxWS - p.websockets.length) f.2
    if m.2.isEmpty then .ok ⟨f.1 ++ m.1⟩
    else .error "Maximum topics limit has been reached"

/-- The `for ws in self.websockets: ws.remove_topics(topics_set)` pass of
`WebsocketPool.remove_topics` (twitch/websocket.py lines 555-556),
threading the shrinking set through the connections. -/
def poolRemoveWS : List WS → List String → List WS × List String
  | [], ts => ([], ts)
  | ws :: rest, ts =>
      let p1 := wsRemoveTopics ws ts
      let p2 := poolRemoveWS rest p1.2
      (p1.1 :: p2.1, p2.2)

/-- The compaction loop of `WebsocketPool.remove_topics`
(twitch/websocket.py lines 559-567): while the remaining total fits into
one connection fewer (`count ≤ (len(websockets) - 1) * WS_TOPICS_LIMIT`,
evaluated over ℤ as in Python), pop the last connection and collect its
topics for recycling. The recycled topics are handed to `add_topics` as a
set, so their collection order is immaterial. -/
def compactLoop (limit : ℕ) (wss : List WS) : List WS × List String :=
  if h : wss ≠ [] ∧
      (totalTopics wss : ℤ) ≤ ((wss.length : ℤ) - 1) * (limit : ℤ) then
    let ws := wss.getLast h.1
    let p := compactLoop limit wss.dropLast
    (p.1, p.2 ++ ws.topics)
  else (wss, [])
termination_by wss.length
decreasing_by
  have hne := h.1
  have : 0 < wss.length := List.length_pos.mpr hne
  simp [List.length_dropLast]
  omega

/-- `WebsocketPool.remove_topics` (twitch/websocket.py lines 550-569):
remove by string identity from every connection, compact, and re-add the
recycled topics (the inner `add_topics` call can in principle raise; it
never does under the pool invariant, proved below). -/
def poolRemoveTopics (maxWS limit : ℕ) (p : Pool) (topics : List String) :
    Except String Pool :=
  let ts := topics.dedup
  if ts.isEmpty then .ok p
  else
    let r := poolRemoveWS p.websockets ts
    let c := compactLoop limit r.1
    if c.2.isEmpty then .ok ⟨c.1⟩
    else poolAddTopics maxWS limit ⟨c.1⟩ c.2

/-- The pool invariant of §4.3/§8: at most `MAX_WEBSOCKETS` connections,
each holding at most `WS_TOPICS_LIMIT` topics, and every topic string
held by at most one connection with no duplicates (the pool's topic list
as a whole is duplicate-free). -/
def PoolInv (maxWS limit : ℕ) (p : Pool) : Prop :=
  p.websockets.length ≤ maxWS
  ∧ (∀ ws ∈ p.websockets, ws.topics.length ≤ limit)
  ∧ (poolTopics p).Nodup

/-- The free capacity of a connection list. -/
def freeCap (limit : ℕ) (wss : List WS) : ℕ :=
  (wss.map (fun ws => limit - ws.topics.length)).sum

/-- Shorthand for the concatenated topic tables of a connection list. -/
def joinT (wss : List WS) : List String :=
  (wss.map WS.topics).flatten

theorem joinT_nil : joinT [] = [] := rfl

theorem joinT_cons (ws : WS) (rest : List WS) :
    joinT (ws :: rest) = ws.topics ++ joinT rest := by
  simp [joinT]

theorem joinT_append (l1 l2 : List WS) :
    joinT (l1 ++ l2) = joinT l1 ++ joinT l2 := by
  simp [joinT]

theorem poolTopics_eq_joinT (p : Pool) : poolTopics p = joinT p.websockets :=
  rfl

theorem totalTopics_eq_length_joinT (wss : List WS) :
    totalTopics wss = (joinT wss).length := by
  induction wss with
  | nil => rfl
  | cons ws rest ih =>
      rw [joinT_cons, List.length_append, ← ih]
      simp [totalTopics]

theorem fillExisting_snd (limit : ℕ) (wss : List WS) (ts : List String) :
    (fillExisting limit wss ts).2 = ts.drop (freeCap limit wss) := by
  induction wss generalizing ts with
  | nil => simp [fillExisting, freeCap]
  | cons ws rest ih =>
      rw [fillExisting]
      simp only [wsAddTopics]
      rw [ih]
      rw [List.drop_drop]
      congr 1

theorem fillExisting_length (limit : ℕ) (wss : List WS)
    (ts : List String) :
    (fillExisting limit wss ts).1.length = wss.length := by
  induction wss generalizing ts with
  | nil => rfl
  | cons ws rest ih =>
      rw [fillExisting]
      simp only [List.length_cons]
      rw [ih]

theorem fillExisting_extends (limit : ℕ) (wss : List WS)
    (ts : List String) :
    List.Forall₂
      (fun a b => ∃ seg, b.topics = a.topics ++ seg
        ∧ seg.length ≤ limit - a.topics.length)
      wss (fillExisting limit wss ts).1 := by
  induction wss generalizing ts with
  | nil => exact List.Forall₂.nil
  | cons ws rest ih =>
      rw [fillExisting]
      refine List.Forall₂.cons ?_ (ih _)
      exact ⟨ts.take (limit - ws.topics.length), rfl,
        le_trans (List.length_take_le _ _) le_rfl⟩

theorem fillExisting_bound {limit : ℕ} {wss : List WS} {ts : List String}
    (h : ∀ ws ∈ wss, ws.topics.length ≤ limit) :
    ∀ ws' ∈ (fillExisting limit wss ts).1, ws'.topics.length ≤ limit := by
  induction wss generalizing ts with
  | nil => intro ws' hmem; cases hmem
  | cons ws rest ih =>
      intro ws' hmem
      rw [fillExisting] at hmem
      rcases List.mem_cons.mp hmem with rfl | hmem2
      · simp only [wsAddTopics, List.length_append]
        have h1 : ws.topics.length ≤ limit :=
          h ws (List.mem_cons_self _ _)
        have h2 : (ts.take (limit - ws.topics.length)).length ≤
            limit - ws.topics.length := List.length_take_le _ _
        omega
      · exact ih (fun w hw => h w (List.mem_cons_of_mem _ hw)) _ hmem2

theorem perm_rotate (x y z : List String) :
    List.Perm (x ++ (y ++ z)) (y ++ (x ++ z)) := by
  have h2 := (List.perm_append_comm :
    List.Perm (x ++ y) (y ++ x)).append_right z
  rw [List.append_assoc, List.append_assoc] at h2
  exact h2

theorem fillExisting_perm (limit : ℕ) (wss : List WS) (ts : List String) :
    List.Perm
      (joinT (fillExisting limit wss ts).1 ++ (fillExisting limit wss ts).2)
      (joinT wss ++ ts) := by
  induction wss generalizing ts with
  | nil => exact List.Perm.refl _
  | cons ws rest ih =>
      rw [fillExisting]
      simp only [wsAddTopics]
      rw [joinT_cons, joinT_cons]
      have step1 := List.Perm.append_left (ws.topics ++ ts.take
        (limit - ws.topics.length)) (ih (ts.drop (limit - ws.topics.length)))
      rw [List.append_assoc]
      refine step1.trans ?_
      rw [List.append_assoc, List.append_assoc]
      refine List.Perm.append_left ws.topics ?_
      have step3 := perm_rotate (ts.take (limit - ws.topics.length))
        (joinT rest) (ts.drop (limit - ws.topics.length))
      refine step3.trans ?_
      rw [List.take_append_drop]

theorem makeNew_snd (limit : ℕ) :
    ∀ (n : ℕ) (ts : List String),
      (makeNew limit n ts).2 = ts.drop (n * limit) := by
  intro n
  induction n with
  | zero => intro ts; simp [makeNew]
  | succ n ih =>
      intro ts
      rw [makeNew]
      cases hts : ts.isEmpty with
      | true =>
          have : ts = [] := List.isEmpty_iff.mp hts
          subst this
          simp
      | false =>
          simp only [hts, Bool.false_eq_true, if_false, wsAddTopics]
          rw [ih]
          simp only [List.length_nil, Nat.sub_zero, List.drop_drop]
          congr 1
          ring

theorem makeNew_join (limit : ℕ) :
    ∀ (n : ℕ) (ts : List String),
      joinT (makeNew limit n ts).1 ++ (makeNew limit n ts).2 = ts := by
  intro n
  induction n with
  | zero => intro ts; simp [makeNew, joinT]
  | succ n ih =>
      intro ts
      rw [makeNew]
      cases hts : ts.isEmpty with
      | true => simp [joinT]
      | false =>
          simp only [hts, Bool.false_eq_true, if_false, wsAddTopics]
          rw [joinT_cons]
          simp only [List.length_nil, Nat.sub_zero]
          rw [List.append_assoc, ih]
          exact List.take_append_drop _ _

theorem makeNew_bound (limit : ℕ) :
    ∀ (n : ℕ) (ts : List String),
      ∀ ws' ∈ (makeNew limit n ts).1, ws'.topics.length ≤ limit := by
  intro n
  induction n with
  | zero => intro ts ws' h; cases h
  | succ n ih =>
      intro ts ws' h
      rw [makeNew] at h
      cases hts : ts.isEmpty with
      | true => rw [hts] at h; simp at h
      | false =>
          rw [hts] at h
          simp only [Bool.false_eq_true, if_false] at h
          rcases List.mem_cons.mp h with rfl | h2
          · simp only [wsAddTopics, List.length_nil, Nat.sub_zero]
            simpa using List.length_take_le _ _
          · exact ih _ ws' h2

theorem makeNew_nonempty (limit : ℕ) (hlim : 1 ≤ limit) :
    ∀ (n : ℕ) (ts : List String),
      ∀ ws' ∈ (makeNew limit n ts).1, ws'.topics ≠ [] := by
  intro n
  induction n with
  | zero => intro ts ws' h; cases h
  | succ n ih =>
      intro ts ws' h
      rw [makeNew] at h
      cases hts : ts.isEmpty with
      | true => rw [hts] at h; simp at h
      | false =>
          rw [hts] at h
          simp only [Bool.false_eq_true, if_false] at h
          rcases List.mem_cons.mp h with rfl | h2
          · simp only [wsAddTopics, List.length_nil, Nat.sub_zero,
              List.nil_append]
            intro hempty
            have h1 : ts ≠ [] := by
              intro hts2
              rw [hts2] at hts
              simp at hts
            have h2 : (ts.take limit).length = 0 := by rw [hempty]; rfl
            rw [List.length_take] at h2
            have h3 : 0 < ts.length := List.length_pos.mpr h1
            omega
          · exact ih _ ws' h2

theorem makeNew_length_le (limit : ℕ) :
    ∀ (n : ℕ) (ts : List String), (makeNew limit n ts).1.length ≤ n := by
  intro n
  induction n with
  | zero => intro ts; simp [makeNew]
  | succ n ih =>
      intro ts
      rw [makeNew]
      cases hts : ts.isEmpty with
      | true => simp
      | false =>
          simp only [Bool.false_eq_true, if_false, List.length_cons]
          exact Nat.succ_le_succ (ih _)

theorem makeNew_count (limit : ℕ) :
    ∀ (n : ℕ) (ts : List String), (makeNew limit n ts).1 ≠ [] →
      ((makeNew limit n ts).1.length - 1) * limit < ts.length := by
  intro n
  induction n with
  | zero => intro ts h; exact absurd rfl h
  | succ n ih =>
      intro ts h
      rw [makeNew] at h ⊢
      cases hts : ts.isEmpty with
      | true => rw [hts] at h; simp at h
      | false =>
          rw [hts] at h
          simp only [hts, Bool.false_eq_true, if_false,
            List.length_cons] at h ⊢
          have htsne : ts ≠ [] := by
            intro hts2
            rw [hts2] at hts
            simp at hts
          have htspos : 0 < ts.length := List.length_pos.mpr htsne
          cases hrest : (makeNew limit n
              (wsAddTopics limit ⟨[]⟩ ts).2).1 with
          | nil => simpa [hrest] using htspos
          | cons w rest2 =>
              have hdrop : (wsAddTopics limit ⟨[]⟩ ts).2 =
                  ts.drop limit := by
                simp [wsAddTopics]
              rw [hdrop] at hrest
              have hne2 : (makeNew limit n (ts.drop limit)).1 ≠ [] := by
                rw [hrest]
                intro hc
                cases hc
              have hih := ih (ts.drop limit) hne2
              rw [hrest, List.length_drop] at hih
              simp only [List.length_cons] at hih ⊢
              have hih2 : rest2.length * limit < ts.length - limit := by
                simpa using hih
              rw [Nat.add_sub_cancel, Nat.succ_mul]
              revert hih2
              generalize rest2.length * limit = t
              intro hih2
              omega

theorem totalTopics_nil : totalTopics [] = 0 := rfl

theorem totalTopics_cons (ws : WS) (rest : List WS) :
    totalTopics (ws :: rest) = ws.topics.length + totalTopics rest := by
  simp [totalTopics]

theorem totalTopics_append (l1 l2 : List WS) :
    totalTopics (l1 ++ l2) = totalTopics l1 + totalTopics l2 := by
  simp [totalTopics]

theorem totalTopics_le {limit : ℕ} {wss : List WS}
    (h : ∀ ws ∈ wss, ws.topics.length ≤ limit) :
    totalTopics wss ≤ wss.length * limit := by
  induction wss with
  | nil => simp [totalTopics]
  | cons ws rest ih =>
      rw [totalTopics_cons, List.length_cons, Nat.succ_mul]
      have h1 : ws.topics.length ≤ limit := h ws (List.mem_cons_self _ _)
      have h2 := ih (fun w hw => h w (List.mem_cons_of_mem _ hw))
      omega

theorem freeCap_add_total {limit : ℕ} {wss : List WS}
    (h : ∀ ws ∈ wss, ws.topics.length ≤ limit) :
    freeCap limit wss + totalTopics wss = wss.length * limit := by
  induction wss with
  | nil => simp [freeCap, totalTopics]
  | cons ws rest ih =>
      have h1 : ws.topics.length ≤ limit := h ws (List.mem_cons_self _ _)
      have h2 := ih (fun w hw => h w (List.mem_cons_of_mem _ hw))
      rw [totalTopics_cons, List.length_cons, Nat.succ_mul]
      simp only [freeCap, List.map_cons, List.sum_cons] at h2 ⊢
      omega

theorem mem_joinT {t : String} {wss : List WS} :
    t ∈ joinT wss ↔ ∃ ws ∈ wss, t ∈ ws.topics := by
  simp [joinT]

theorem newTopics_nodup (p : Pool) (topics : List String) :
    (newTopics p topics).Nodup :=
  (List.nodup_dedup topics).filter _

theorem newTopics_disjoint (p : Pool) (topics : List String) :
    ∀ t ∈ newTopics p topics, t ∉ poolTopics p := by
  intro t ht hmem
  rw [newTopics, List.mem_filter] at ht
  obtain ⟨-, hflt⟩ := ht
  rw [poolTopics_eq_joinT, mem_joinT] at hmem
  obtain ⟨ws, hws, htop⟩ := hmem
  have : p.websockets.any (fun ws => ws.topics.contains t) = true :=
    List.any_eq_true.mpr ⟨ws, hws, by simpa using htop⟩
  rw [this] at hflt
  cases hflt

theorem poolAddTopics_ok_inv {maxWS limit : ℕ} {p : Pool}
    {topics : List String} {p' : Pool}
    (hlen : p.websockets.length ≤ maxWS)
    (hbound : ∀ ws ∈ p.websockets, ws.topics.length ≤ limit)
    (hok : poolAddTopics maxWS limit p topics = .ok p') :
    p'.websockets.length ≤ maxWS
    ∧ (∀ ws ∈ p'.websockets, ws.topics.length ≤ limit)
    ∧ List.Perm (poolTopics p') (poolTopics p ++ newTopics p topics) := by
  rw [poolAddTopics] at hok
  cases hempty : (newTopics p topics).isEmpty with
  | true =>
      rw [if_pos (by simp [hempty])] at hok
      cases hok
      have hnil : newTopics p topics = [] := List.isEmpty_iff.mp hempty
      exact ⟨hlen, hbound, by rw [hnil, List.append_nil]⟩
  | false =>
      rw [if_neg (by simp [hempty])] at hok
      cases hrem2 : (makeNew limit (maxWS - p.websockets.length)
          (fillExisting limit p.websockets (newTopics p topics)).2).2.isEmpty
        with
      | false => rw [if_neg (by simp [hrem2])] at hok; cases hok
      | true =>
          rw [if_pos (by simp [hrem2])] at hok
          cases hok
          refine ⟨?_, ?_, ?_⟩
          · simp only [List.length_append]
            rw [fillExisting_length]
            have := makeNew_length_le limit
              (maxWS - p.websockets.length)
              (fillExisting limit p.websockets (newTopics p topics)).2
            omega
          · intro ws hws
            rcases List.mem_append.mp hws with h | h
            · exact fillExisting_bound hbound _ h
            · exact makeNew_bound limit _ _ _ h
          · have hmk : joinT (makeNew limit (maxWS - p.websockets.length)
                (fillExisting limit p.websockets (newTopics p topics)).2).1
                = (fillExisting limit p.websockets (newTopics p topics)).2
                := by
              have := makeNew_join limit (maxWS - p.websockets.length)
                (fillExisting limit p.websockets (newTopics p topics)).2
              rw [List.isEmpty_iff.mp hrem2, List.append_nil] at this
              exact this
            show List.Perm (joinT _) _
            rw [joinT_append, hmk, poolTopics_eq_joinT]
            exact fillExisting_perm limit p.websockets (newTopics p topics)

theorem poolAddTopics_error_iff {maxWS limit : ℕ} {p : Pool}
    {topics : List String}
    (hlen : p.websockets.length ≤ maxWS)
    (hbound : ∀ ws ∈ p.websockets, ws.topics.length ≤ limit) :
    (poolAddTopics maxWS limit p topics).isOk = false ↔
      maxWS * limit <
        totalTopics p.websockets + (newTopics p topics).length := by
  have htot : totalTopics p.websockets ≤ p.websockets.length * limit :=
    totalTopics_le hbound
  have hfree := freeCap_add_total hbound
  have hlenmul : p.websockets.length * limit ≤ maxWS * limit :=
    Nat.mul_le_mul_right _ hlen
  rw [poolAddTopics]
  cases hempty : (newTopics p topics).isEmpty with
  | true =>
      rw [if_pos (by simp [hempty])]
      have hnil : newTopics p topics = [] := List.isEmpty_iff.mp hempty
      simp only [Except.isOk, hnil, List.length_nil, Nat.add_zero]
      constructor
      · intro h; cases h
      · intro h; omega
  | false =>
      rw [if_neg (by simp [hempty])]
      have hrem : (fillExisting limit p.websockets
          (newTopics p topics)).2.length =
          (newTopics p topics).length - freeCap limit p.websockets := by
        rw [fillExisting_snd, List.length_drop]
      have hrem2 : (makeNew limit (maxWS - p.websockets.length)
          (fillExisting limit p.websockets (newTopics p topics)).2).2.length
          = (newTopics p topics).length - freeCap limit p.websockets -
            (maxWS - p.websockets.length) * limit := by
        rw [makeNew_snd, List.length_drop, hrem]
      cases hmk : (makeNew limit (maxWS - p.websockets.length)
          (fillExisting limit p.websockets (newTopics p topics)).2).2.isEmpty
        with
      | true =>
          rw [if_pos (by simp [hmk])]
          simp only [Except.isOk]
          have hz : (makeNew limit (maxWS - p.websockets.length)
              (fillExisting limit p.websockets
                (newTopics p topics)).2).2.length = 0 := by
            rw [List.isEmpty_iff.mp hmk]
            rfl
          rw [hrem2] at hz
          constructor
          · intro h; cases h
          · intro h
            exfalso
            have hsub : (maxWS - p.websockets.length) * limit =
                maxWS * limit - p.websockets.length * limit :=
              Nat.sub_mul _ _ _
            omega
      | false =>
          rw [if_neg (by simp [hmk])]
          simp only [Except.isOk]
          have hz : 0 < (makeNew limit (maxWS - p.websockets.length)
              (fillExisting limit p.websockets
                (newTopics p topics)).2).2.length := by
            have hne : (makeNew limit (maxWS - p.websockets.length)
                (fillExisting limit p.websockets
                  (newTopics p topics)).2).2 ≠ [] := by
              intro hc
              rw [hc] at hmk
              cases hmk
            exact List.length_pos.mpr hne
          rw [hrem2] at hz
          constructor
          · intro _
            have hsub : (maxWS - p.websockets.length) * limit =
                maxWS * limit - p.websockets.length * limit :=
              Nat.sub_mul _ _ _
            omega
          · intro _
            rfl

theorem wsRemoveTopics_fst_mem (ws : WS) (ts : List String) :
    ∀ u, u ∈ (wsRemoveTopics ws ts).1.topics ↔ (u ∈ ws.topics ∧ u ∉ ts) := by
  intro u
  rw [wsRemoveTopics]
  cases hany : ts.any (fun t => ws.topics.contains t) with
  | true =>
      rw [if_pos (by simp [hany])]
      simp [List.mem_filter]
  | false =>
      rw [if_neg (by simp [hany])]
      have hno : ∀ w ∈ ts, w ∉ ws.topics := by
        intro w hw
        have := List.any_eq_false.mp hany w hw
        simpa using this
      constructor
      · intro hu
        exact ⟨hu, fun hts => (hno u hts) hu⟩
      · exact fun h => h.1

theorem wsRemoveTopics_snd_mem (ws : WS) (ts : List String) :
    ∀ u, u ∈ (wsRemoveTopics ws ts).2 ↔ (u ∈ ts ∧ u ∉ ws.topics) := by
  intro u
  rw [wsRemoveTopics]
  cases hany : ts.any (fun t => ws.topics.contains t) with
  | true =>
      rw [if_pos (by simp [hany])]
      simp [List.mem_filter]
  | false =>
      rw [if_neg (by simp [hany])]
      have hno : ∀ w ∈ ts, w ∉ ws.topics := by
        intro w hw
        have := List.any_eq_false.mp hany w hw
        simpa using this
      constructor
      · intro hu
        exact ⟨hu, hno u hu⟩
      · exact fun h => h.1

theorem wsRemoveTopics_fst_sublist (ws : WS) (ts : List String) :
    (wsRemoveTopics ws ts).1.topics.Sublist ws.topics := by
  rw [wsRemoveTopics]
  cases hany : ts.any (fun t => ws.topics.contains t) with
  | true =>
      rw [if_pos (by simp [hany])]
      exact List.filter_sublist _
  | false =>
      rw [if_neg (by simp [hany])]

theorem wsRemoveTopics_snd_sublist (ws : WS) (ts : List String) :
    (wsRemoveTopics ws ts).2.Sublist ts := by
  rw [wsRemoveTopics]
  cases hany : ts.any (fun t => ws.topics.contains t) with
  | true =>
      rw [if_pos (by simp [hany])]
      exact List.filter_sublist _
  | false =>
      rw [if_neg (by simp [hany])]

theorem poolRemoveWS_length (wss : List WS) (ts : List String) :
    (poolRemoveWS wss ts).1.length = wss.length := by
  induction wss generalizing ts with
  | nil => rfl
  | cons ws rest ih =>
      rw [poolRemoveWS]
      simp only [List.length_cons]
      rw [ih]

theorem poolRemoveWS_bound {limit : ℕ} {wss : List WS} {ts : List String}
    (hbound : ∀ ws ∈ wss, ws.topics.length ≤ limit) :
    ∀ b ∈ (poolRemoveWS wss ts).1, b.topics.length ≤ limit := by
  induction wss generalizing ts with
  | nil => intro b hb; cases hb
  | cons ws rest ih =>
      intro b hb
      rw [poolRemoveWS] at hb
      rcases List.mem_cons.mp hb with rfl | hb2
      · exact le_trans
          ((wsRemoveTopics_fst_sublist ws ts).length_le)
          (hbound ws (List.mem_cons_self _ _))
      · exact ih (fun w hw => hbound w (List.mem_cons_of_mem _ hw)) _ hb2

theorem poolRemoveWS_joinT_sublist (wss : List WS) (ts : List String) :
    (joinT (poolRemoveWS wss ts).1).Sublist (joinT wss) := by
  induction wss generalizing ts with
  | nil => exact List.Sublist.refl _
  | cons ws rest ih =>
      rw [poolRemoveWS, joinT_cons, joinT_cons]
      exact List.Sublist.append (wsRemoveTopics_fst_sublist ws ts) (ih _)

theorem poolRemoveWS_mem :
    ∀ (wss : List WS) (ts : List String), (joinT wss).Nodup →
      ∀ t, t ∈ joinT (poolRemoveWS wss ts).1 ↔
        (t ∈ joinT wss ∧ t ∉ ts) := by
  intro wss
  induction wss with
  | nil =>
      intro ts _ t
      simp [poolRemoveWS, joinT]
  | cons ws rest ih =>
      intro ts hnd t
      rw [joinT_cons] at hnd
      rw [List.nodup_append] at hnd
      obtain ⟨hnd1, hnd2, hdisj⟩ := hnd
      rw [poolRemoveWS, joinT_cons, joinT_cons]
      simp only [List.mem_append]
      rw [wsRemoveTopics_fst_mem]
      rw [ih (wsRemoveTopics ws ts).2 hnd2 t]
      have hts2 := wsRemoveTopics_snd_mem ws ts t
      constructor
      · rintro (⟨hmem, hnts⟩ | ⟨hmem, hnts2⟩)
        · exact ⟨Or.inl hmem, hnts⟩
        · refine ⟨Or.inr hmem, fun hts => ?_⟩
          have hnws : t ∉ ws.topics := fun hws => hdisj hws hmem
          exact hnts2 (hts2.mpr ⟨hts, hnws⟩)
      · rintro ⟨hmem | hmem, hnts⟩
        · exact Or.inl ⟨hmem, hnts⟩
        · refine Or.inr ⟨hmem, fun hin2 => ?_⟩
          exact hnts (hts2.mp hin2).1

theorem compactLoop_perm (limit : ℕ) :
    ∀ (N : ℕ) (wss : List WS), wss.length ≤ N →
      List.Perm
        (joinT (compactLoop limit wss).1 ++ (compactLoop limit wss).2)
        (joinT wss) := by
  intro N
  induction N with
  | zero =>
      intro wss h
      have hnil : wss = [] := List.length_eq_zero.mp (Nat.le_zero.mp h)
      subst hnil
      rw [compactLoop, dif_neg (by simp)]
      simp [joinT]
  | succ N ihN =>
      intro wss hlen
      rw [compactLoop]
      by_cases hc : wss ≠ [] ∧
          (totalTopics wss : ℤ) ≤ ((wss.length : ℤ) - 1) * (limit : ℤ)
      · rw [dif_pos hc]
        have hpos : 0 < wss.length := List.length_pos.mpr hc.1
        have hdl : wss.dropLast.length ≤ N := by
          rw [List.length_dropLast]
          omega
        have ihp := ihN wss.dropLast hdl
        have hsplit : joinT wss =
            joinT wss.dropLast ++ (wss.getLast hc.1).topics := by
          conv_lhs => rw [← List.dropLast_append_getLast hc.1]
          rw [joinT_append, joinT_cons, joinT_nil, List.append_nil]
        rw [hsplit, ← List.append_assoc]
        exact ihp.append_right _
      · rw [dif_neg hc]
        simp

theorem compactLoop_subset (limit : ℕ) :
    ∀ (N : ℕ) (wss : List WS), wss.length ≤ N →
      ∀ ws ∈ (compactLoop limit wss).1, ws ∈ wss := by
  intro N
  induction N with
  | zero =>
      intro wss h
      have hnil : wss = [] := List.length_eq_zero.mp (Nat.le_zero.mp h)
      subst hnil
      rw [compactLoop, dif_neg (by simp)]
      intro ws hws
      exact hws
  | succ N ihN =>
      intro wss hlen
      rw [compactLoop]
      by_cases hc : wss ≠ [] ∧
          (totalTopics wss : ℤ) ≤ ((wss.length : ℤ) - 1) * (limit : ℤ)
      · rw [dif_pos hc]
        have hpos : 0 < wss.length := List.length_pos.mpr hc.1
        have hdl : wss.dropLast.length ≤ N := by
          rw [List.length_dropLast]
          omega
        intro ws hws
        exact (List.dropLast_sublist wss).subset (ihN wss.dropLast hdl ws hws)
      · rw [dif_neg hc]
        intro ws hws
        exact hws

theorem compactLoop_len_le (limit : ℕ) :
    ∀ (N : ℕ) (wss : List WS), wss.length ≤ N →
      (compactLoop limit wss).1.length ≤ wss.length := by
  intro N
  induction N with
  | zero =>
      intro wss h
      have hnil : wss = [] := List.length_eq_zero.mp (Nat.le_zero.mp h)
      subst hnil
      rw [compactLoop, dif_neg (by simp)]
  | succ N ihN =>
      intro wss hlen
      rw [compactLoop]
      by_cases hc : wss ≠ [] ∧
          (totalTopics wss : ℤ) ≤ ((wss.length : ℤ) - 1) * (limit : ℤ)
      · rw [dif_pos hc]
        have hpos : 0 < wss.length := List.length_pos.mpr hc.1
        have hdl : wss.dropLast.length ≤ N := by
          rw [List.length_dropLast]
          omega
        have := ihN wss.dropLast hdl
        rw [List.length_dropLast] at this
        show (compactLoop limit wss.dropLast).1.length ≤ wss.length
        omega
      · rw [dif_neg hc]

theorem compactLoop_post (limit : ℕ) :
    ∀ (N : ℕ) (wss : List WS), wss.length ≤ N →
      (compactLoop limit wss).1 = [] ∨
        (((compactLoop limit wss).1.length : ℤ) - 1) * (limit : ℤ) <
          (totalTopics (compactLoop limit wss).1 : ℤ) := by
  intro N
  induction N with
  | zero =>
      intro wss h
      have hnil : wss = [] := List.length_eq_zero.mp (Nat.le_zero.mp h)
      subst hnil
      rw [compactLoop, dif_neg (by simp)]
      exact Or.inl rfl
  | succ N ihN =>
      intro wss hlen
      rw [compactLoop]
      by_cases hc : wss ≠ [] ∧
          (totalTopics wss : ℤ) ≤ ((wss.length : ℤ) - 1) * (limit : ℤ)
      · rw [dif_pos hc]
        have hpos : 0 < wss.length := List.length_pos.mpr hc.1
        have hdl : wss.dropLast.length ≤ N := by
          rw [List.length_dropLast]
          omega
        exact ihN wss.dropLast hdl
      · rw [dif_neg hc]
        push_neg at hc
        by_cases hnil : wss = []
        · exact Or.inl hnil
        · exact Or.inr (hc hnil)

theorem makeNew_nil_input (limit : ℕ) :
    ∀ n : ℕ, makeNew limit n [] = ([], []) := by
  intro n
  cases n with
  | zero => rfl
  | succ n => rw [makeNew]; rfl

theorem totalTopics_perm {l1 l2 : List WS} (h : List.Perm l1 l2) :
    totalTopics l1 = totalTopics l2 :=
  List.Perm.sum_eq (h.map (fun ws => ws.topics.length))

theorem nonempty_of_count {limit : ℕ} {wss : List WS}
    (hbound : ∀ ws ∈ wss, ws.topics.length ≤ limit)
    (hcount : ((wss.length : ℤ) - 1) * (limit : ℤ) <
      (totalTopics wss : ℤ)) :
    ∀ ws ∈ wss, ws.topics ≠ [] := by
  intro ws0 h0 hempty
  have hperm : List.Perm wss (ws0 :: wss.erase ws0) :=
    List.perm_cons_erase h0
  have htot : totalTopics wss = totalTopics (ws0 :: wss.erase ws0) :=
    totalTopics_perm hperm
  rw [totalTopics_cons, hempty] at htot
  simp only [List.length_nil, Nat.zero_add] at htot
  have herase_bound : ∀ ws ∈ wss.erase ws0, ws.topics.length ≤ limit :=
    fun ws hws => hbound ws (List.mem_of_mem_erase hws)
  have hle : totalTopics (wss.erase ws0) ≤ (wss.erase ws0).length * limit :=
    totalTopics_le herase_bound
  have hlen : (wss.erase ws0).length = wss.length - 1 :=
    List.length_erase_of_mem h0
  have hpos : 0 < wss.length := List.length_pos.mpr
    (fun hnil => by rw [hnil] at h0; cases h0)
  rw [hlen] at hle
  rw [htot] at hcount
  have hcast : ((wss.length - 1 : ℕ) : ℤ) = (wss.length : ℤ) - 1 := by
    omega
  have : (totalTopics (wss.erase ws0) : ℤ) ≤
      ((wss.length : ℤ) - 1) * (limit : ℤ) := by
    calc (totalTopics (wss.erase ws0) : ℤ)
        ≤ ((wss.length - 1 : ℕ) * limit : ℕ) := by exact_mod_cast hle
      _ = ((wss.length : ℤ) - 1) * (limit : ℤ) := by
          push_cast
          rw [hcast]
  omega

theorem fillExisting_nonempty {limit : ℕ} {wss : List WS}
    {ts : List String} (h : ∀ ws ∈ wss, ws.topics ≠ []) :
    ∀ ws' ∈ (fillExisting limit wss ts).1, ws'.topics ≠ [] := by
  induction wss generalizing ts with
  | nil => intro ws' hmem; cases hmem
  | cons ws rest ih =>
      intro ws' hmem
      rw [fillExisting] at hmem
      rcases List.mem_cons.mp hmem with rfl | hmem2
      · simp only [wsAddTopics]
        intro hc
        exact h ws (List.mem_cons_self _ _) (List.append_eq_nil.mp hc).1
      · exact ih (fun w hw => h w (List.mem_cons_of_mem _ hw)) _ hmem2

theorem poolAddTopics_nonempty {maxWS limit : ℕ} {p : Pool}
    {topics : List String} {p' : Pool} (hlim : 1 ≤ limit)
    (hne : ∀ ws ∈ p.websockets, ws.topics ≠ [])
    (hok : poolAddTopics maxWS limit p topics = .ok p') :
    ∀ ws ∈ p'.websockets, ws.topics ≠ [] := by
  rw [poolAddTopics] at hok
  cases hempty : (newTopics p topics).isEmpty with
  | true =>
      rw [if_pos (by simp [hempty])] at hok
      cases hok
      exact hne
  | false =>
      rw [if_neg (by simp [hempty])] at hok
      cases hrem2 : (makeNew limit (maxWS - p.websockets.length)
          (fillExisting limit p.websockets (newTopics p topics)).2).2.isEmpty
        with
      | false => rw [if_neg (by simp [hrem2])] at hok; cases hok
      | true =>
          rw [if_pos (by simp [hrem2])] at hok
          cases hok
          intro ws hws
          rcases List.mem_append.mp hws with h | h
          · exact fillExisting_nonempty hne _ h
          · exact makeNew_nonempty limit hlim _ _ _ h

theorem poolAddTopics_count {maxWS limit : ℕ} {p : Pool}
    {topics : List String} {p' : Pool} (hlim : 1 ≤ limit)
    (hbound : ∀ ws ∈ p.websockets, ws.topics.length ≤ limit)
    (hpre : p.websockets = [] ∨
      ((p.websockets.length : ℤ) - 1) * (limit : ℤ) <
        (totalTopics p.websockets : ℤ))
    (hok : poolAddTopics maxWS limit p topics = .ok p') :
    ((p'.websockets.length : ℤ) - 1) * (limit : ℤ) <
      (totalTopics p'.websockets : ℤ) := by
  rw [poolAddTopics] at hok
  cases hempty : (newTopics p topics).isEmpty with
  | true =>
      rw [if_pos (by simp [hempty])] at hok
      cases hok
      rcases hpre with hnil | hcount
      · rw [hnil]
        simp only [List.length_nil, totalTopics_nil, Nat.cast_zero,
          CharP.cast_eq_zero]
        have : (1 : ℤ) ≤ (limit : ℤ) := by exact_mod_cast hlim
        nlinarith
      · exact hcount
  | false =>
      rw [if_neg (by simp [hempty])] at hok
      have hts1ne : newTopics p topics ≠ [] := by
        intro hc
        rw [hc] at hempty
        cases hempty
      cases hrem2 : (makeNew limit (maxWS - p.websockets.length)
          (fillExisting limit p.websockets (newTopics p topics)).2).2.isEmpty
        with
      | false => rw [if_neg (by simp [hrem2])] at hok; cases hok
      | true =>
          rw [if_pos (by simp [hrem2])] at hok
          cases hok
          have hm2nil : (makeNew limit (maxWS - p.websockets.length)
              (fillExisting limit p.websockets
                (newTopics p topics)).2).2 = [] :=
            List.isEmpty_iff.mp hrem2
          have hlen_f : (fillExisting limit p.websockets
              (newTopics p topics)).1.length = p.websockets.length :=
            fillExisting_length _ _ _
          have hcount_eq : totalTopics (fillExisting limit p.websockets
                (newTopics p topics)).1
              + (fillExisting limit p.websockets
                  (newTopics p topics)).2.length
              = totalTopics p.websockets + (newTopics p topics).length := by
            have hp := (fillExisting_perm limit p.websockets
              (newTopics p topics)).length_eq
            rw [List.length_append, List.length_append] at hp
            rw [totalTopics_eq_length_joinT, totalTopics_eq_length_joinT]
            exact hp
          show ((((fillExisting limit p.websockets
              (newTopics p topics)).1
            ++ (makeNew limit (maxWS - p.websockets.length)
              (fillExisting limit p.websockets
                (newTopics p topics)).2).1).length : ℤ) - 1) * (limit : ℤ)
            < (totalTopics ((fillExisting limit p.websockets
                (newTopics p topics)).1
              ++ (makeNew limit (maxWS - p.websockets.length)
                (fillExisting limit p.websockets
                  (newTopics p topics)).2).1) : ℤ)
          rw [List.length_append, totalTopics_append, hlen_f]
          cases hm1 : (makeNew limit (maxWS - p.websockets.length)
              (fillExisting limit p.websockets (newTopics p topics)).2).1
            with
          | nil =>
              have hjm : joinT ([] : List WS)
                  ++ (makeNew limit (maxWS - p.websockets.length)
                    (fillExisting limit p.websockets
                      (newTopics p topics)).2).2
                  = (fillExisting limit p.websockets
                      (newTopics p topics)).2 := by
                rw [← hm1]
                exact makeNew_join _ _ _
              rw [hm2nil, joinT_nil, List.nil_append] at hjm
              have hf2nil : (fillExisting limit p.websockets
                  (newTopics p topics)).2 = [] := hjm.symm
              rcases hpre with hnil | hcount
              · exfalso
                rw [hnil] at hf2nil
                rw [fillExisting] at hf2nil
                exact hts1ne hf2nil
              · simp only [totalTopics_nil, List.length_nil, Nat.add_zero]
                have htot : totalTopics (fillExisting limit p.websockets
                    (newTopics p topics)).1
                    = totalTopics p.websockets
                      + (newTopics p topics).length := by
                  rw [hf2nil] at hcount_eq
                  simpa using hcount_eq
                rw [htot]
                push_cast
                omega
          | cons w rest2 =>
              rw [← hm1]
              have hm1ne : (makeNew limit (maxWS - p.websockets.length)
                  (fillExisting limit p.websockets
                    (newTopics p topics)).2).1 ≠ [] := by
                rw [hm1]
                intro hc
                cases hc
              have hf2ne : (fillExisting limit p.websockets
                  (newTopics p topics)).2 ≠ [] := by
                intro hc
                rw [hc, makeNew_nil_input] at hm1ne
                exact hm1ne rfl
              have hfree_lt : freeCap limit p.websockets <
                  (newTopics p topics).length := by
                have := fillExisting_snd limit p.websockets
                  (newTopics p topics)
                by_contra hge
                push_neg at hge
                apply hf2ne
                rw [this]
                rw [List.drop_eq_nil_iff]
                exact hge
              have hf2len : (fillExisting limit p.websockets
                  (newTopics p topics)).2.length
                  = (newTopics p topics).length
                    - freeCap limit p.websockets := by
                rw [fillExisting_snd, List.length_drop]
              have htot_f : totalTopics (fillExisting limit p.websockets
                  (newTopics p topics)).1
                  = p.websockets.length * limit := by
                have hfc := freeCap_add_total hbound
                omega
              have htot_m : totalTopics (makeNew limit
                  (maxWS - p.websockets.length)
                  (fillExisting limit p.websockets
                    (newTopics p topics)).2).1
                  = (fillExisting limit p.websockets
                      (newTopics p topics)).2.length := by
                rw [totalTopics_eq_length_joinT]
                congr 1
                have := makeNew_join limit (maxWS - p.websockets.length)
                  (fillExisting limit p.websockets (newTopics p topics)).2
                rw [hm2nil, List.append_nil] at this
                exact this
              have hcnt := makeNew_count limit
                (maxWS - p.websockets.length)
                (fillExisting limit p.websockets (newTopics p topics)).2
                hm1ne
              rw [htot_f, htot_m]
              set L := p.websockets.length with hL
              set c := (makeNew limit (maxWS - p.websockets.length)
                  (fillExisting limit p.websockets
                    (newTopics p topics)).2).1.length with hc
              set F := (fillExisting limit p.websockets
                  (newTopics p topics)).2.length with hF
              have hcpos : 1 ≤ c := by
                rw [hc, hm1]
                simp
              have hcnt2 : ((c : ℤ) - 1) * (limit : ℤ) < (F : ℤ) := by
                have hcast : ((c - 1 : ℕ) : ℤ) = (c : ℤ) - 1 := by omega
                calc ((c : ℤ) - 1) * (limit : ℤ)
                    = (((c - 1) * limit : ℕ) : ℤ) := by
                      push_cast
                      rw [hcast]
                  _ < (F : ℤ) := by exact_mod_cast hcnt
              have hring : (((L : ℤ) + (c : ℤ)) - 1) * (limit : ℤ)
                  = (L : ℤ) * (limit : ℤ)
                    + ((c : ℤ) - 1) * (limit : ℤ) := by ring
              push_cast
              rw [hring]
              omega

theorem poolRemoveTopics_spec {maxWS limit : ℕ} {p : Pool}
    {topics : List String} (hlim : 1 ≤ limit)
    (hinv : PoolInv maxWS limit p) :
    ∃ p', poolRemoveTopics maxWS limit p topics = .ok p'
      ∧ PoolInv maxWS limit p'
      ∧ (∀ t, t ∈ poolTopics p' ↔ (t ∈ poolTopics p ∧ t ∉ topics))
      ∧ (topics ≠ [] →
          (((p'.websockets.length : ℤ) - 1) * (limit : ℤ) <
            (totalTopics p'.websockets : ℤ))
          ∧ (∀ ws ∈ p'.websockets, ws.topics ≠ [])) := by
  obtain ⟨hlen, hbound, hnd⟩ := hinv
  rw [poolTopics_eq_joinT] at hnd
  cases hdempty : topics.dedup.isEmpty with
  | true =>
      have htnil : topics = [] := by
        have h0 := List.isEmpty_iff.mp hdempty
        exact (List.dedup_eq_nil _).mp h0
      refine ⟨p, ?_, ⟨hlen, hbound, by rw [poolTopics_eq_joinT]; exact hnd⟩,
        ?_, ?_⟩
      · rw [poolRemoveTopics, if_pos (by simp [hdempty])]
      · intro t
        rw [htnil]
        simp
      · intro hne
        exact absurd htnil hne
  | false =>
      have hr_len : (poolRemoveWS p.websockets topics.dedup).1.length =
          p.websockets.length := poolRemoveWS_length _ _
      have hr_bound : ∀ ws ∈ (poolRemoveWS p.websockets topics.dedup).1,
          ws.topics.length ≤ limit := poolRemoveWS_bound hbound
      have hr_sub := poolRemoveWS_joinT_sublist p.websockets topics.dedup
      have hr_nd : (joinT (poolRemoveWS p.websockets topics.dedup).1).Nodup :=
        List.Nodup.sublist hr_sub hnd
      have hr_mem := poolRemoveWS_mem p.websockets topics.dedup hnd
      have hr_total : totalTopics (poolRemoveWS p.websockets topics.dedup).1
          ≤ totalTopics p.websockets := by
        rw [totalTopics_eq_length_joinT, totalTopics_eq_length_joinT]
        exact hr_sub.length_le
      have hc_perm := compactLoop_perm limit
        (poolRemoveWS p.websockets topics.dedup).1.length
        (poolRemoveWS p.websockets topics.dedup).1 le_rfl
      have hc_sub := compactLoop_subset limit
        (poolRemoveWS p.websockets topics.dedup).1.length
        (poolRemoveWS p.websockets topics.dedup).1 le_rfl
      have hc_len := compactLoop_len_le limit
        (poolRemoveWS p.websockets topics.dedup).1.length
        (poolRemoveWS p.websockets topics.dedup).1 le_rfl
      have hc_post := compactLoop_post limit
        (poolRemoveWS p.websockets topics.dedup).1.length
        (poolRemoveWS p.websockets topics.dedup).1 le_rfl
      have hc_bound : ∀ ws ∈ (compactLoop limit
          (poolRemoveWS p.websockets topics.dedup).1).1,
          ws.topics.length ≤ limit :=
        fun ws hws => hr_bound ws (hc_sub ws hws)
      have hc_nd : (joinT (compactLoop limit
            (poolRemoveWS p.websockets topics.dedup).1).1
          ++ (compactLoop limit
            (poolRemoveWS p.websockets topics.dedup).1).2).Nodup :=
        (hc_perm.nodup_iff).mpr hr_nd
      have hc_total : totalTopics (compactLoop limit
            (poolRemoveWS p.websockets topics.dedup).1).1
          + (compactLoop limit
            (poolRemoveWS p.websockets topics.dedup).1).2.length
          = totalTopics (poolRemoveWS p.websockets topics.dedup).1 := by
        have := hc_perm.length_eq
        rw [List.length_append] at this
        rw [totalTopics_eq_length_joinT, totalTopics_eq_length_joinT]
        exact this
      have hc_memiff : ∀ t, (t ∈ joinT (compactLoop limit
            (poolRemoveWS p.websockets topics.dedup).1).1
          ∨ t ∈ (compactLoop limit
            (poolRemoveWS p.websockets topics.dedup).1).2)
          ↔ t ∈ joinT (poolRemoveWS p.websockets topics.dedup).1 := by
        intro t
        rw [← List.mem_append]
        exact hc_perm.mem_iff
      cases hc2 : (compactLoop limit
          (poolRemoveWS p.websockets topics.dedup).1).2.isEmpty with
      | true =>
          have hc2nil : (compactLoop limit
              (poolRemoveWS p.websockets topics.dedup).1).2 = [] :=
            List.isEmpty_iff.mp hc2
          have hstep : poolRemoveTopics maxWS limit p topics =
              .ok ⟨(compactLoop limit
                (poolRemoveWS p.websockets topics.dedup).1).1⟩ := by
            rw [poolRemoveTopics, if_neg (by simp [hdempty]),
              if_pos (by simp [hc2])]
          have hcountOr := hc_post
          refine ⟨_, hstep, ⟨?_, ?_, ?_⟩, ?_, ?_⟩
          · show (compactLoop limit
              (poolRemoveWS p.websockets topics.dedup).1).1.length ≤ maxWS
            omega
          · exact hc_bound
          · rw [poolTopics_eq_joinT]
            rw [hc2nil, List.append_nil] at hc_nd
            exact hc_nd
          · intro t
            rw [poolTopics_eq_joinT, poolTopics_eq_joinT]
            show t ∈ joinT (compactLoop limit
              (poolRemoveWS p.websockets topics.dedup).1).1 ↔ _
            have h0 : t ∈ joinT (compactLoop limit
                (poolRemoveWS p.websockets topics.dedup).1).1 ↔
                t ∈ joinT (poolRemoveWS p.websockets topics.dedup).1 := by
              rw [← hc_memiff t, hc2nil]
              simp
            rw [h0, hr_mem t, List.mem_dedup]
          · intro _
            have hcount : (((compactLoop limit
                (poolRemoveWS p.websockets topics.dedup).1).1.length : ℤ)
                - 1) * (limit : ℤ)
                < (totalTopics (compactLoop limit
                  (poolRemoveWS p.websockets topics.dedup).1).1 : ℤ) := by
              rcases hcountOr with hnil | hcount
              · rw [hnil]
                simp only [List.length_nil, totalTopics_nil, Nat.cast_zero,
                  CharP.cast_eq_zero]
                have : (1 : ℤ) ≤ (limit : ℤ) := by exact_mod_cast hlim
                nlinarith
              · exact hcount
            exact ⟨hcount, nonempty_of_count hc_bound hcount⟩
      | false =>
          have hc2ne : (compactLoop limit
              (poolRemoveWS p.websockets topics.dedup).1).2 ≠ [] := by
            intro hc
            rw [hc] at hc2
            cases hc2
          have hstep : poolRemoveTopics maxWS limit p topics =
              poolAddTopics maxWS limit
                ⟨(compactLoop limit
                  (poolRemoveWS p.websockets topics.dedup).1).1⟩
                (compactLoop limit
                  (poolRemoveWS p.websockets topics.dedup).1).2 := by
            rw [poolRemoveTopics, if_neg (by simp [hdempty]),
              if_neg (by simp [hc2])]
          rw [List.nodup_append] at hc_nd
          obtain ⟨hnd1, hnd2, hdisj⟩ := hc_nd
          have hnew : newTopics
              ⟨(compactLoop limit
                (poolRemoveWS p.websockets topics.dedup).1).1⟩
              (compactLoop limit
                (poolRemoveWS p.websockets topics.dedup).1).2
              = (compactLoop limit
                (poolRemoveWS p.websockets topics.dedup).1).2 := by
            rw [newTopics, List.dedup_eq_self.mpr hnd2]
            rw [List.filter_eq_self]
            intro t ht
            have hnmem : t ∉ joinT (compactLoop limit
                (poolRemoveWS p.websockets topics.dedup).1).1 :=
              fun hmem => hdisj hmem ht
            simp only [Bool.not_eq_eq_eq_not, Bool.not_true,
              List.any_eq_false]
            intro ws hws
            simp only [Bool.not_eq_true]
            cases hcon : ws.topics.contains t with
            | false => rfl
            | true =>
                exfalso
                apply hnmem
                rw [mem_joinT]
                exact ⟨ws, hws, by simpa using hcon⟩
          have hlen' : (compactLoop limit
              (poolRemoveWS p.websockets topics.dedup).1).1.length ≤ maxWS
            := by omega
          have hnoerr : (poolAddTopics maxWS limit
              ⟨(compactLoop limit
                (poolRemoveWS p.websockets topics.dedup).1).1⟩
              (compactLoop limit
                (poolRemoveWS p.websockets topics.dedup).1).2).isOk
              = true := by
            cases hbool : (poolAddTopics maxWS limit
                ⟨(compactLoop limit
                  (poolRemoveWS p.websockets topics.dedup).1).1⟩
                (compactLoop limit
                  (poolRemoveWS p.websockets topics.dedup).1).2).isOk with
            | true => rfl
            | false =>
                exfalso
                have h1 := (poolAddTopics_error_iff hlen' hc_bound).mp hbool
                rw [hnew] at h1
                have h2 : maxWS * limit <
                    totalTopics (compactLoop limit
                      (poolRemoveWS p.websockets topics.dedup).1).1
                    + (compactLoop limit
                      (poolRemoveWS p.websockets topics.dedup).1).2.length
                  := h1
                have htotle : totalTopics p.websockets ≤
                    p.websockets.length * limit := totalTopics_le hbound
                have hmul : p.websockets.length * limit ≤ maxWS * limit :=
                  Nat.mul_le_mul_right _ hlen
                omega
          obtain ⟨p', hok⟩ : ∃ p', poolAddTopics maxWS limit
              ⟨(compactLoop limit
                (poolRemoveWS p.websockets topics.dedup).1).1⟩
              (compactLoop limit
                (poolRemoveWS p.websockets topics.dedup).1).2 = .ok p' := by
            cases hres : poolAddTopics maxWS limit
                ⟨(compactLoop limit
                  (poolRemoveWS p.websockets topics.dedup).1).1⟩
                (compactLoop limit
                  (poolRemoveWS p.websockets topics.dedup).1).2 with
            | ok q => exact ⟨q, rfl⟩
            | error e => rw [hres] at hnoerr; cases hnoerr
          obtain ⟨hplen, hpbound, hpperm⟩ :=
            poolAddTopics_ok_inv hlen' hc_bound hok
          rw [hnew] at hpperm
          rw [poolTopics_eq_joinT] at hpperm
          have hpre : (compactLoop limit
              (poolRemoveWS p.websockets topics.dedup).1).1 = [] ∨
              (((compactLoop limit
                (poolRemoveWS p.websockets topics.dedup).1).1.length : ℤ)
                - 1) * (limit : ℤ)
              < (totalTopics (compactLoop limit
                (poolRemoveWS p.websockets topics.dedup).1).1 : ℤ) :=
            hc_post
          have hcount' := poolAddTopics_count hlim hc_bound hpre hok
          have hnonempty' := poolAddTopics_nonempty hlim
            (by
              rcases hpre with hnil | hcount
              · rw [hnil]
                intro ws hws
                cases hws
              · exact nonempty_of_count hc_bound hcount)
            hok
          refine ⟨p', by rw [hstep]; exact hok, ⟨hplen, hpbound, ?_⟩,
            ?_, ?_⟩
          · rw [poolTopics_eq_joinT]
            refine (hpperm.nodup_iff).mpr ?_
            rw [List.nodup_append]
            exact ⟨hnd1, hnd2, hdisj⟩
          · intro t
            rw [poolTopics_eq_joinT, poolTopics_eq_joinT]
            have h1 : t ∈ joinT p'.websockets ↔
                t ∈ joinT (compactLoop limit
                  (poolRemoveWS p.websockets topics.dedup).1).1
                ++ (compactLoop limit
                  (poolRemoveWS p.websockets topics.dedup).1).2 := by
              rw [poolTopics_eq_joinT] at hpperm
              exact hpperm.mem_iff
            rw [h1, List.mem_append, hc_memiff t, hr_mem t,
              List.mem_dedup]
          · intro _
            exact ⟨hcount', hnonempty'⟩

theorem nodup_at_most_one {wss : List WS}
    (hnd : (joinT wss).Nodup) (t : String) :
    (wss.filter (fun ws => ws.topics.contains t)).length ≤ 1 := by
  induction wss with
  | nil => simp
  | cons ws rest ih =>
      rw [joinT_cons, List.nodup_append] at hnd
      obtain ⟨hnd1, hnd2, hdisj⟩ := hnd
      rw [List.filter_cons]
      cases hcon : ws.topics.contains t with
      | false => simpa using ih hnd2
      | true =>
          simp only [if_true]
          have htmem : t ∈ ws.topics := by simpa using hcon
          have hrest : rest.filter (fun ws => ws.topics.contains t) = [] := by
            rw [List.filter_eq_nil_iff]
            intro ws' hws'
            simp only [Bool.not_eq_true]
            cases hcon2 : ws'.topics.contains t with
            | false => rfl
            | true =>
                exfalso
                have : t ∈ joinT rest :=
                  mem_joinT.mpr ⟨ws', hws', by simpa using hcon2⟩
                exact hdisj htmem this
          rw [hrest]
          simp

/-- C2: under the pool invariant, every connection's topic table stays
within `WS_TOPICS_LIMIT` and the pool within `MAX_WEBSOCKETS` connections
across `add_topics` and `remove_topics` calls, and `add_topics` raises
`MinerException` exactly when the genuinely new distinct topics cannot
fit, i.e. when the pool's topic count plus the new distinct topic count
exceeds `MAX_WEBSOCKETS × WS_TOPICS_LIMIT`. -/
theorem C2_pool_limits (maxWS limit : ℕ) (p : Pool) (topics : List String)
    (hlim : 1 ≤ limit) (hinv : PoolInv maxWS limit p) :
    (∀ p', poolAddTopics maxWS limit p topics = .ok p' →
      p'.websockets.length ≤ maxWS
      ∧ ∀ ws ∈ p'.websockets, ws.topics.length ≤ limit)
    ∧ (∀ p', poolRemoveTopics maxWS limit p topics = .ok p' →
      p'.websockets.length ≤ maxWS
      ∧ ∀ ws ∈ p'.websockets, ws.topics.length ≤ limit)
    ∧ ((poolAddTopics maxWS limit p topics).isOk = false ↔
      maxWS * limit <
        totalTopics p.websockets + (newTopics p topics).length) := by
  refine ⟨?_, ?_, poolAddTopics_error_iff hinv.1 hinv.2.1⟩
  · intro p' hok
    obtain ⟨h1, h2, _⟩ := poolAddTopics_ok_inv hinv.1 hinv.2.1 hok
    exact ⟨h1, h2⟩
  · intro p' hok
    obtain ⟨q, hq, hqinv, _, _⟩ := poolRemoveTopics_spec hlim hinv
    rw [hok] at hq
    cases hq
    exact ⟨hqinv.1, hqinv.2.1⟩

/-- Witness for C2: a two-connection pool with limit 2; three topics fit,
five raise. -/
theorem C2_pool_limits_witness :
    (∀ ws ∈ (Pool.mk [WS.mk ["a", "b"], WS.mk ["c"]]).websockets,
      ws.topics.length ≤ 2)
    ∧ (poolAddTopics 2 2 (Pool.mk [])
        ["a", "b", "c", "d", "e"]).isOk = false := by
  have hinv : PoolInv 2 2 (Pool.mk []) := by
    refine ⟨by norm_num, ?_, ?_⟩
    · intro ws h
      cases h
    · simp [poolTopics, joinT]
  constructor
  · exact ((C2_pool_limits 2 2 (Pool.mk []) ["a", "b", "c"]
      (by norm_num) hinv).1
      (Pool.mk [WS.mk ["a", "b"], WS.mk ["c"]]) rfl).2
  · refine ((C2_pool_limits 2 2 (Pool.mk []) ["a", "b", "c", "d", "e"]
      (by norm_num) hinv).2.2).mpr ?_
    show 2 * 2 < totalTopics (Pool.mk ([] : List WS)).websockets
      + (newTopics (Pool.mk []) ["a", "b", "c", "d", "e"]).length
    decide

/-- C7: `remove_topics` deletes by string identity and compacts: on
return the remaining total no longer fits into one connection fewer
(`count > (n-1)·WS_TOPICS_LIMIT` over ℤ, which also covers the empty
pool), the surviving topics are exactly the previous ones minus the
removed set (the recycled topics were re-added), and every remaining
connection — in particular any sole connection — holds at least one
topic. -/
theorem C7_remove_compaction (maxWS limit : ℕ) (p : Pool)
    (topics : List String) (hlim : 1 ≤ limit)
    (hinv : PoolInv maxWS limit p) (hne : topics ≠ []) :
    ∃ p', poolRemoveTopics maxWS limit p topics = .ok p'
      ∧ ¬((totalTopics p'.websockets : ℤ) ≤
          ((p'.websockets.length : ℤ) - 1) * (limit : ℤ))
      ∧ (∀ ws ∈ p'.websockets, ws.topics ≠ [])
      ∧ (∀ t, t ∈ poolTopics p' ↔ (t ∈ poolTopics p ∧ t ∉ topics)) := by
  obtain ⟨p', hok, _, hmem, hg⟩ := poolRemoveTopics_spec hlim hinv
  obtain ⟨hcount, hnonempty⟩ := hg hne
  exact ⟨p', hok, not_le.mpr hcount, hnonempty, hmem⟩

/-- Witness for C7: removing "c" from a pool of two connections pops the
now-empty second connection. -/
theorem C7_remove_compaction_witness :
    ∃ p', poolRemoveTopics 2 2
        (Pool.mk [WS.mk ["a", "b"], WS.mk ["c"]]) ["c"] = .ok p'
      ∧ (∀ ws ∈ p'.websockets, ws.topics ≠ [])
      ∧ ("c" ∉ poolTopics p' ∧ "a" ∈ poolTopics p') := by
  have hinv : PoolInv 2 2 (Pool.mk [WS.mk ["a", "b"], WS.mk ["c"]]) := by
    refine ⟨by norm_num, ?_, ?_⟩
    · decide
    · decide
  obtain ⟨p', hok, _, hnonempty, hmem⟩ := C7_remove_compaction 2 2
    (Pool.mk [WS.mk ["a", "b"], WS.mk ["c"]]) ["c"] (by norm_num) hinv
    (by simp)
  refine ⟨p', hok, hnonempty, ?_, ?_⟩
  · intro hc
    have := (hmem "c").mp hc
    simp at this
  · exact (hmem "a").mpr ⟨by decide, by decide⟩

/-- C10: the pool's connections hold pairwise disjoint, duplicate-free
topic sets: the whole pool topic list stays duplicate-free across
`add_topics` (which first discards topics already assigned) and
`remove_topics`, so any topic string is held by at most one connection at
any time. -/
theorem C10_pool_disjoint (maxWS limit : ℕ) (p : Pool)
    (topics : List String) (hlim : 1 ≤ limit)
    (hinv : PoolInv maxWS limit p) :
    (∀ p', poolAddTopics maxWS limit p topics = .ok p' →
      (poolTopics p').Nodup
      ∧ ∀ t, (p'.websockets.filter
          (fun ws => ws.topics.contains t)).length ≤ 1)
    ∧ (∀ p', poolRemoveTopics maxWS limit p topics = .ok p' →
      (poolTopics p').Nodup
      ∧ ∀ t, (p'.websockets.filter
          (fun ws => ws.topics.contains t)).length ≤ 1) := by
  constructor
  · intro p' hok
    obtain ⟨-, -, hperm⟩ := poolAddTopics_ok_inv hinv.1 hinv.2.1 hok
    have hnd : (poolTopics p').Nodup := by
      refine (hperm.nodup_iff).mpr ?_
      rw [List.nodup_append]
      refine ⟨hinv.2.2, newTopics_nodup p topics, ?_⟩
      intro t ht1 ht2
      exact newTopics_disjoint p topics t ht2 ht1
    exact ⟨hnd, fun t => nodup_at_most_one hnd t⟩
  · intro p' hok
    obtain ⟨q, hq, hqinv, _, _⟩ := poolRemoveTopics_spec hlim hinv
    rw [hok] at hq
    cases hq
    exact ⟨hqinv.2.2, fun t => nodup_at_most_one hqinv.2.2 t⟩

/-- Witness for C10: adding a topic already assigned plus a fresh one
keeps the pool duplicate-free, with topic "a" on exactly one
connection. -/
theorem C10_pool_disjoint_witness :
    ∃ p', poolAddTopics 2 2 (Pool.mk [WS.mk ["a"]]) ["a", "b"] = .ok p'
      ∧ (poolTopics p').Nodup
      ∧ (p'.websockets.filter
          (fun ws => ws.topics.contains "a")).length ≤ 1 := by
  have hinv : PoolInv 2 2 (Pool.mk [WS.mk ["a"]]) := by
    refine ⟨by norm_num, by decide, by decide⟩
  refine ⟨Pool.mk [WS.mk ["a", "b"]], rfl, ?_⟩
  have h := (C10_pool_disjoint 2 2 (Pool.mk [WS.mk ["a"]]) ["a", "b"]
    (by norm_num) hinv).1 (Pool.mk [WS.mk ["a", "b"]]) rfl
  exact ⟨h.1, h.2 "a"⟩

end TDM
